import Mathlib

/-!
Verification of the WebScrapBook capture orchestrator
(`src/capturer/background.js`) against its natural-language specification.

The development shallowly embeds the session-scoped capture logic:

* the access deduplicator of `capturer.downloadFile` / `capturer.captureUrl`
  (access-token map, redirect merging, error memoization) as an explicit
  state machine;
* the filename allocator `capturer.getUniqueFilename`;
* the archive packager branches of `capturer.saveDocument` and
  `capturer.downloadBlob` (singleHtml / zip / maff / folder);
* the settle handler of `capturer.captureTab`.

Helper functions of the `scrapbook` utility library are not part of the
given source file; each such helper is modelled from the specification's
description and carries a doc comment saying so.
-/

set_option maxRecDepth 16384

namespace WSB

/-! ## String helpers

Kernel-computable string scanning (over `String.data`), used instead of the
byte-position based core functions so that concrete instances evaluate by
`decide`. -/

/-- Boolean test that `p` is a prefix of `s`, over the underlying char lists. -/
def strStarts (s p : String) : Bool :=
  p.data.isPrefixOf s.data

/-- Lowercase a string character by character.  Models the JavaScript
`String.prototype.toLowerCase` used by `capturer.getUniqueFilename`. -/
def lowerStr (s : String) : String :=
  ⟨s.data.map Char.toLower⟩

/-- Modelled from the spec: `scrapbook.splitUrlByAnchor`, which splits a URL
into the part before the first `#` (the fragment-stripped URL) and the
fragment from the `#` on. -/
def splitUrlByAnchor (url : String) : String × String :=
  (⟨url.data.takeWhile (fun c => c ≠ '#')⟩,
   ⟨url.data.dropWhile (fun c => c ≠ '#')⟩)

/-! ## The settle handler of `capturer.captureTab`

`capturer.captureTab` sends the capture request and then runs

```
.then((response) => {
  capturer.captureInfo.delete(timeId);
  if (!response) { throw ...NotReady; }
  else if (response.error) { throw ...General; }
  return response;
}).catch((ex) => { ...; return new Error(err); });
```

We embed the handler as a function of the underlying capture's outcome and
of whether the session entry for `timeId` is present in
`capturer.captureInfo`. -/

/-- A capture result object, as resolved by the orchestrator's operations:
`{timeId, sourceUrl, targetDir, filename, url, error}` with the optional
fields defaulted.  `error` is the optional error field of the response
object. -/
structure DlResult where
  url : String
  filename : Option String := none
  targetDir : Option String := none
  error : Option String := none
  deriving DecidableEq, Repr

/-- Outcome of the underlying capture promise passed to `captureTab`'s
handlers: fulfilled with a response object (`none` models an undefined
response), or rejected with an exception. -/
inductive CaptureOutcome where
  | fulfilled (response : Option DlResult)
  | rejected (e : String)
  deriving DecidableEq, Repr

/-- What `captureTab` ultimately resolves with: the response object, or an
`Error` object produced by the final `catch` handler. -/
inductive TabResult where
  | ok (r : DlResult)
  | errObj (msg : String)
  deriving DecidableEq, Repr

/-- The settle handler of `capturer.captureTab`: given whether the
`captureInfo` entry for the capture's `timeId` is present and the outcome of
the underlying capture, return the presence of the entry afterwards together
with the value `captureTab` resolves with. -/
def captureTabSettle (present : Bool) (o : CaptureOutcome) : Bool × TabResult :=
  match o with
  | .fulfilled r =>
    match r with
    | none => (false, .errObj "ErrorContentScriptNotReady")
    | some resp =>
      match resp.error with
      | some _ => (false, .errObj "ErrorCaptureGeneral")
      | none => (false, .ok resp)
  | .rejected e => (present, .errObj e)

/-! ## The zip compression choice of `capturer.downloadBlob`

The `"zip"` branch of `capturer.downloadBlob` picks the compression of the
new archive entry by

```
if (/^text\/|\b(?:xml|json|javascript)\b/.test(blob.type) && blob.size >= 128)
```

We embed the regular-expression test as an explicit scan with JavaScript
word-boundary semantics. -/

/-- A blob: MIME type plus content bytes.  `size` is the byte count. -/
structure Blob where
  type : String
  content : List Nat
  deriving DecidableEq, Repr

/-- The size of a blob, in bytes. -/
def Blob.size (b : Blob) : Nat := b.content.length

/-- A JavaScript word character (`\w`, i.e. `[A-Za-z0-9_]`). -/
def wordChar (c : Char) : Bool := c.isAlphanum || c = '_'

/-- Does `w` match in `s` at position `i` with a word boundary (`\b`) on
each side?  A boundary holds at the start/end of the string or against a
non-word character (the candidate words consist of word characters only). -/
def wordAt (s w : List Char) (i : Nat) : Bool :=
  ((s.drop i).take w.length == w)
    && (i == 0 || !wordChar (s.getD (i - 1) ' '))
    && (i + w.length == s.length || !wordChar (s.getD (i + w.length) ' '))

/-- The word alternatives of the compression regex. -/
def compressibleWords : List String := ["xml", "json", "javascript"]

/-- The test of the literal regex `/^text\/|\b(?:xml|json|javascript)\b/`
from `capturer.downloadBlob`. -/
def compressibleType (t : String) : Bool :=
  strStarts t "text/" ||
    (List.range (t.data.length + 1)).any (fun i =>
      compressibleWords.any (fun w => wordAt t.data w.data i))

/-- Compression of one archive entry. -/
inductive Compression where
  | DEFLATE
  | STORE
  deriving DecidableEq, Repr

/-- Content of one archive entry: a document string or blob bytes. -/
inductive ZipData where
  | text (s : String)
  | bytes (bs : List Nat)
  deriving DecidableEq, Repr

/-- One entry of the session's growing archive (`JSZip.file`). -/
structure ZipEntry where
  path : String
  data : ZipData
  compression : Compression
  deriving DecidableEq, Repr

/-- Modelled from the spec: `scrapbook.escapeFilename`, escaping a saved
filename for use inside a URL.  The escaping itself is irrelevant to the
claims under study and is modelled as the identity. -/
def escapeFilename (s : String) : String := s

/-- The compression choice of the `"zip"` (and `"maff"`) branch of
`capturer.downloadBlob`. -/
def zipCompressionFor (b : Blob) : Compression :=
  if compressibleType b.type && decide (128 ≤ b.size) then .DEFLATE else .STORE

/-- The `"zip"` branch of `capturer.downloadBlob`: add the blob to the
session's archive under `filename` with the chosen compression, and resolve
with the filename-based URL. -/
def downloadBlobZip (zip : List ZipEntry) (b : Blob) (filename sourceUrl : String) :
    List ZipEntry × DlResult :=
  (zip ++ [⟨filename, .bytes b.content, zipCompressionFor b⟩],
   { url := escapeFilename filename ++ (splitUrlByAnchor sourceUrl).2,
     filename := some filename })

/-- Substring containment over char lists (the reading of "contains" in the
claim under study). -/
def containsSub (s w : List Char) : Bool :=
  (List.range (s.length + 1)).any (fun i => (s.drop i).take w.length == w)

/-- Proposition: `w` occurs in `s` as a whole word, i.e. delimited on each
side by a non-word character or by an end of the string. -/
def WordOccursIn (s w : List Char) : Prop :=
  ∃ pre suf : List Char, s = pre ++ w ++ suf ∧
    (∀ c ∈ pre.getLast?, wordChar c = false) ∧
    (∀ c ∈ suf.head?, wordChar c = false)

/-! ## The folder persistence branch

The `"folder"` branches of `capturer.saveDocument` and
`capturer.downloadBlob` persist each file through `capturer.saveBlob`
(which hands it to the external download subsystem).  We record each
`saveBlob` invocation with its parameters. -/

/-- Characters rejected by filename validation. -/
def badFsChar (c : Char) : Bool :=
  ['\\', '/', ':', '*', '?', '"', '<', '>', '|'].contains c || decide (c.toNat < 32)

/-- Modelled from the spec: `scrapbook.validateFilename`, validating a
filename for filesystem safety, optionally keeping only ASCII characters. -/
def validateFilename (s : String) (asciiOnly : Bool) : String :=
  ⟨s.data.filter (fun c => !badFsChar c && (!asciiOnly || decide (c.toNat < 128)))⟩

/-- The `params.data` of `capturer.saveDocument`:
`{mime, charset, content, title}`. -/
structure DocData where
  mime : String
  charset : String
  content : String
  title : String
  deriving DecidableEq, Repr

/-- One invocation of `capturer.saveBlob` in folder mode, with the
parameters of the call. -/
structure SaveBlobCall where
  directory : String
  filename : String
  sourceUrl : String
  content : ZipData
  mime : String
  autoErase : Bool
  savePrompt : Bool
  deriving DecidableEq, Repr

/-- The extension chosen for a document by its content type:
`"." + ((data.mime === "application/xhtml+xml") ? "xhtml" : "html")`. -/
def docExt (mime : String) : String :=
  if mime = "application/xhtml+xml" then ".xhtml" else ".html"

/-- The redirect stub emitted beside an `index.xhtml` main document. -/
def xhtmlStub : String :=
  "<meta charset=\"UTF-8\"><meta http-equiv=\"refresh\" content=\"0;url=index.xhtml\">"

/-- The `"folder"` branch of `capturer.saveDocument`: save the document
blob (auto-erased unless it is the main frame's non-xhtml document), then,
for a main xhtml document, additionally save an `index.html` redirect stub,
and resolve with the finally saved filename. -/
def saveDocumentFolder (data : DocData) (frameIsMain : Bool)
    (documentName timeId scrapbookFolder sourceUrl : String) (asciiOnly : Bool) :
    List SaveBlobCall × DlResult :=
  let targetDir := scrapbookFolder ++ "/data/" ++ timeId
  let ext := docExt data.mime
  let filename := validateFilename (documentName ++ ext) asciiOnly
  let hash := (splitUrlByAnchor sourceUrl).2
  let call1 : SaveBlobCall :=
    ⟨targetDir, filename, sourceUrl, .text data.content, data.mime,
      !frameIsMain || ext == ".xhtml", false⟩
  if frameIsMain && (ext == ".xhtml") then
    let call2 : SaveBlobCall :=
      ⟨targetDir, "index.html", sourceUrl, .text xhtmlStub, "text/html", false, false⟩
    ([call1, call2],
     { url := escapeFilename "index.html" ++ hash, filename := some "index.html",
       targetDir := some targetDir })
  else
    ([call1],
     { url := escapeFilename filename ++ hash, filename := some filename,
       targetDir := some targetDir })

/-- The `"folder"` branch of `capturer.downloadBlob`: save the blob into the
per-session directory, always with `autoErase: true`. -/
def downloadBlobFolder (b : Blob) (filename sourceUrl timeId scrapbookFolder : String) :
    SaveBlobCall × DlResult :=
  let targetDir := scrapbookFolder ++ "/data/" ++ timeId
  let hash := (splitUrlByAnchor sourceUrl).2
  (⟨targetDir, filename, sourceUrl, .bytes b.content, b.type, true, false⟩,
   { url := escapeFilename filename ++ hash, filename := some filename,
     targetDir := some targetDir })

/-! ## The maff (timestamped-archive) packaging branch

The `"maff"` branches of `capturer.saveDocument` and
`capturer.downloadBlob` put every entry under the path prefix
`timeId + "/"`, and the main document additionally gets an `index.rdf`
manifest under the same prefix. -/

/-- Modelled from the spec: `scrapbook.escapeHtml`, escaping text for
embedding in an HTML/XML document. -/
def escapeHtml (s : String) : String :=
  ⟨s.data.flatMap (fun c =>
    if c = '&' then "&amp;".data
    else if c = '<' then "&lt;".data
    else if c = '>' then "&gt;".data
    else if c = '"' then "&quot;".data
    else [c])⟩

/-- Modelled from the spec: `scrapbook.idToDate(timeId).toUTCString()`, the
archive timestamp derived from the time-derived session id; modelled as a
deterministic rendering of the id's date fields. -/
def idToUTCString (timeId : String) : String :=
  let d := timeId.data
  (⟨d.take 4⟩ : String) ++ "-" ++ (⟨(d.drop 4).take 2⟩ : String) ++ "-" ++
    (⟨(d.drop 6).take 2⟩ : String) ++ " " ++ (⟨(d.drop 8).take 2⟩ : String) ++ ":" ++
    (⟨(d.drop 10).take 2⟩ : String) ++ ":" ++ (⟨(d.drop 12).take 2⟩ : String) ++ " UTC"

/-- The head of the maff `index.rdf` template literal, up to the first
interpolated element. -/
def rdfHead : String :=
  "<?xml version=\"1.0\"?>\n<RDF:RDF xmlns:MAF=\"http://maf.mozdev.org/metadata/rdf#\"\n         xmlns:NC=\"http://home.netscape.com/NC-rdf#\"\n         xmlns:RDF=\"http://www.w3.org/1999/02/22-rdf-syntax-ns#\">\n  <RDF:Description RDF:about=\"urn:root\">\n    "

/-- The separator between manifest elements in the template. -/
def rdfSep : String := "\n    "

/-- The tail of the manifest template. -/
def rdfTail : String := "\n  </RDF:Description>\n</RDF:RDF>\n"

/-- The `index.rdf` manifest of a maff archive, as generated by the maff
branch of `capturer.saveDocument` (the template literal, split at the
interpolation boundaries). -/
def rdfContent (sourceUrl title timeId filename : String) : String :=
  rdfHead ++
  ("<MAF:originalurl RDF:resource=\"" ++ escapeHtml sourceUrl ++ "\"/>") ++ rdfSep ++
  ("<MAF:title RDF:resource=\"" ++ escapeHtml title ++ "\"/>") ++ rdfSep ++
  ("<MAF:archivetime RDF:resource=\"" ++ escapeHtml (idToUTCString timeId) ++ "\"/>") ++ rdfSep ++
  ("<MAF:indexfilename RDF:resource=\"" ++ filename ++ "\"/>") ++ rdfSep ++
  "<MAF:charset RDF:resource=\"UTF-8\"/>" ++ rdfTail

/-- The `"maff"` branch of `capturer.saveDocument`: add the document under
`timeId/filename`; for the main frame, additionally add the `index.html`
redirect stub when the document is xhtml, and the `index.rdf` manifest.
Returns the grown archive and the in-archive index filename (the final
persisting of the generated `.maff` archive is outside the claims under
study). -/
def saveDocumentMaff (zip : List ZipEntry) (data : DocData) (frameIsMain : Bool)
    (documentName timeId sourceUrl : String) (asciiOnly : Bool) :
    List ZipEntry × String :=
  let ext := docExt data.mime
  let filename := validateFilename (documentName ++ ext) asciiOnly
  let zip1 := zip ++ [⟨timeId ++ "/" ++ filename, .text data.content, .DEFLATE⟩]
  if frameIsMain then
    let zip2 :=
      if ext == ".xhtml" then
        zip1 ++ [⟨timeId ++ "/" ++ "index.html", .text xhtmlStub, .DEFLATE⟩]
      else zip1
    (zip2 ++ [⟨timeId ++ "/" ++ "index.rdf",
        .text (rdfContent sourceUrl data.title timeId filename), .DEFLATE⟩],
     filename)
  else
    (zip1, filename)

/-- The `"maff"` branch of `capturer.downloadBlob`: add the blob under
`timeId/filename` with the usual compression choice. -/
def downloadBlobMaff (zip : List ZipEntry) (b : Blob) (filename sourceUrl timeId : String) :
    List ZipEntry × DlResult :=
  (zip ++ [⟨timeId ++ "/" ++ filename, .bytes b.content, zipCompressionFor b⟩],
   { url := escapeFilename filename ++ (splitUrlByAnchor sourceUrl).2,
     filename := some filename })

/-- Proposition: `sub` occurs contiguously inside `s`. -/
def StrContains (s sub : String) : Prop :=
  ∃ pre suf : String, s = pre ++ sub ++ suf

/-! ## Decimal rendering

The collision loop of `capturer.getUniqueFilename` appends a decimal
counter (`base + "-" + (++count) + ext`).  Its termination and the
distinctness of the candidate names rest on the injectivity of `Nat.repr`,
proved here through a clean recursive presentation of the decimal digits. -/

/-- Numeric value of a decimal digit character. -/
def charToDigit (c : Char) : Nat := c.toNat - 48

/-- The decimal digit characters of `n`, most significant first. -/
def decDigits (n : Nat) : List Char :=
  if n < 10 then [Nat.digitChar n]
  else decDigits (n / 10) ++ [Nat.digitChar (n % 10)]
termination_by n
decreasing_by exact Nat.div_lt_self (by omega) (by omega)

/-- Value of a decimal digit string. -/
def decVal (l : List Char) : Nat := l.foldl (fun a c => a * 10 + charToDigit c) 0

/-! ## The filename allocator (`capturer.getUniqueFilename`) -/

/-- Modelled from the spec: `scrapbook.filenameParts`, splitting a filename
into base and extension at the last dot. -/
def filenameParts (fn : String) : String × String :=
  match fn.data.reverse.findIdx? (fun c => c == '.') with
  | none => (fn, "")
  | some ri =>
    let i := fn.data.length - 1 - ri
    (⟨fn.data.take i⟩, ⟨fn.data.drop (i + 1)⟩)

/-- Modelled from the spec: `scrapbook.crop`, clamping a name to a length
bound (`getUniqueFilename` clamps the base to a byte bound of 240 and a
character bound of 128); modelled as truncation to the bound. -/
def crop (s : String) (n : Nat) : String := ⟨s.data.take n⟩

/-- The reserved default names seeding a session's filename set
(`capturer.defaultFilesSet`). -/
def defaultFilesSet : List String := ["index.rdf", "index.dat"]

/-- The clamped base name used by `capturer.getUniqueFilename` for a
desired filename: `filename || "untitled"` split at the extension dot,
then `scrapbook.crop(scrapbook.crop(base, 240, true), 128)`. -/
def allocBase (filename : Option String) : String :=
  let fn := match filename with
    | none => "untitled"
    | some s => if s = "" then "untitled" else s
  crop (crop (filenameParts fn).1 240) 128

/-- The dotted extension used by `capturer.getUniqueFilename`:
`newFilenameExt ? "." + newFilenameExt : ""`. -/
def allocExt (filename : Option String) : String :=
  let fn := match filename with
    | none => "untitled"
    | some s => if s = "" then "untitled" else s
  if (filenameParts fn).2 = "" then "" else "." ++ (filenameParts fn).2

/-- The `count`-th candidate filename tried by the collision loop: the
plain name first, then `base + "-" + count + ext`. -/
def candidateName (base ext : String) : Nat → String
  | 0 => base ++ ext
  | k + 1 => base ++ "-" ++ Nat.repr (k + 1) ++ ext

/-- The collision loop of `capturer.getUniqueFilename` (the
`while (files.has(newFilenameCI))` loop), with explicit fuel;
`files.length + 1` tries always reach a free name (`uniqLoop_free`). -/
def uniqLoop (files : List String) (base ext : String) : Nat → Nat → String
  | 0, count => candidateName base ext count
  | fuel + 1, count =>
    if lowerStr (candidateName base ext count) ∈ files then
      uniqLoop files base ext fuel (count + 1)
    else candidateName base ext count

/-- `capturer.getUniqueFilename`, acting on the session's set of lowercased
used names: find the first candidate whose lowercase form is free, insert
that lowercase form, and return the original-case name. -/
def getUniqueFilename (files : List String) (filename : Option String) :
    String × List String :=
  let newName := uniqLoop files (allocBase filename) (allocExt filename) (files.length + 1) 0
  (newName, lowerStr newName :: files)

/-- A sequence of `getUniqueFilename` calls against one session: returns
the allocated names and the final filename set. -/
def runAllocations (files : List String) : List (Option String) → List String × List String
  | [] => ([], files)
  | fn :: rest =>
    let r := getUniqueFilename files fn
    let rest' := runAllocations r.2 rest
    (r.1 :: rest'.1, rest'.2)

/-! ## The access deduplicator of `capturer.downloadFile`

`capturer.downloadFile` (and `capturer.captureUrl`, which runs the same
access-map logic with rewrite method `"captureUrl"`) keeps one promise per
access token in the session's `accessMap`.  We embed the logic as a state
machine: the synchronous prologue of a request is one atomic step (the
single-threaded host runs it to the transport call without suspension), and
the transport's `readyState === 2`, `onload` and `onerror` callbacks are
further steps. -/

/-- Modelled from the spec: `scrapbook.sha1(text, "TEXT")`, a deterministic
fingerprint of the text, modelled as the fingerprinted text itself. -/
def sha1 (text : String) : String := text

/-- `capturer.getAccessToken`: fingerprint of the fragment-stripped URL and
the rewrite method name (`method || ""`). -/
def getAccessToken (url : String) (method : Option String) : String :=
  sha1 ((splitUrlByAnchor url).1 ++ "\t" ++ method.getD "")

/-- Modelled from the spec: `capturer.getErrorUrl`, the placeholder URL
recorded in the error record of a failed resource. -/
def getErrorUrl (sourceUrl : String) : String :=
  "urn:scrapbook:download:error:" ++ sourceUrl

/-- A file decoded from a data URI. -/
structure DataFile where
  name : String
  bytes : List Nat
  deriving DecidableEq, Repr

/-- Modelled from the spec: `scrapbook.dataUriToFile`, decoding a data URI
into a named file and failing (`null`) on a malformed one. -/
def dataUriToFile (url : String) : Option DataFile :=
  if strStarts url "data:" && url.data.contains ',' then
    some ⟨"untitled", ((url.data.dropWhile (fun c => c ≠ ',')).drop 1).map Char.toNat⟩
  else none

/-- State of one promise: pending, resolved with (adopting the eventual
value of) another promise, fulfilled with a result object, or rejected.
The `catch` attached to `accessCurrent` turns every rejection of the
underlying work into a fulfilled error record, so the machine never
produces a `rejected` state. -/
inductive PromState where
  | pending
  | linked (p : Nat)
  | fulfilled (r : DlResult)
  | rejected (e : String)
  deriving DecidableEq, Repr

/-- One transport request (`scrapbook.xhr`) issued by `downloadFile`, with
the data its callbacks close over. -/
structure FetchRec where
  srcUrl : String
  srcUrlMain : String
  method : Option String
  promise : Nat
  aborted : Bool
  deriving DecidableEq, Repr

/-- The per-session dedup state: the `accessMap` (token to promise,
newest-first association list), the promises and the issued fetches,
both indexed by position. -/
structure SessionState where
  accessMap : List (String × Nat)
  promStates : List PromState
  fetches : List FetchRec
  deriving DecidableEq, Repr

/-- The state of a fresh session. -/
def initSession : SessionState := ⟨[], [], []⟩

/-- First-match lookup in an association list (JavaScript `Map.get`, with
`Map.set` modelled as prepending — the code only sets absent keys). -/
def lookupA (k : String) : List (String × Nat) → Option Nat
  | [] => none
  | (k', v) :: rest => if k' = k then some v else lookupA k rest

/-- The `capture.saveAs` option. -/
inductive SaveAs where
  | singleHtml
  | zip
  | maff
  | folder
  deriving DecidableEq, Repr

/-- The capture options consulted by `downloadFile`'s data-URI branch. -/
structure CaptureOptions where
  saveAs : SaveAs
  saveDataUriAsFile : Bool
  deriving DecidableEq, Repr

/-- The synchronous prologue of `capturer.downloadFile` (one atomic step
under cooperative scheduling): return the memoized promise for the token if
present; otherwise, for a data URI settle per the data-URI branches, else
register a fresh pending promise under the token and issue the transport
fetch.  Returns the new state and the promise the call returns. -/
def requestStep (S : SessionState) (url : String) (method : Option String)
    (opts : CaptureOptions) : SessionState × Nat :=
  let urlMain := (splitUrlByAnchor url).1
  let token := getAccessToken urlMain method
  match lookupA token S.accessMap with
  | some p => (S, p)
  | none =>
    let p := S.promStates.length
    if strStarts urlMain "data:" then
      if opts.saveDataUriAsFile && !(opts.saveAs == .singleHtml) then
        match dataUriToFile urlMain with
        | some _ =>
          ({ S with accessMap := (token, p) :: S.accessMap,
                    promStates := S.promStates ++ [.pending] }, p)
        | none =>
          ({ S with accessMap := (token, p) :: S.accessMap,
                    promStates := S.promStates ++
                      [.fulfilled ⟨getErrorUrl url, none, none, some "Malformed data URL."⟩] }, p)
      else
        ({ S with accessMap := (token, p) :: S.accessMap,
                  promStates := S.promStates ++ [.fulfilled ⟨url, none, none, none⟩] }, p)
    else
      ({ accessMap := (token, p) :: S.accessMap,
         promStates := S.promStates ++ [.pending],
         fetches := S.fetches ++ [⟨url, urlMain, method, p, false⟩] }, p)

/-- The `readyState === 2` callback of a fetch: if the transport resolved
to a different fragment-stripped URL (a redirect), either resolve the
promise from a previously registered promise of the resolved URL and abort
the transport call, or register the resolved URL's token for the same
promise. -/
def headersStep (S : SessionState) (fid : Nat) (responseUrl : String) : SessionState :=
  match S.fetches[fid]? with
  | none => S
  | some fr =>
    if fr.aborted then S
    else
      let respMain := (splitUrlByAnchor responseUrl).1
      if respMain = fr.srcUrlMain then S
      else
        let token := getAccessToken respMain fr.method
        match lookupA token S.accessMap with
        | some p' =>
          if S.promStates[fr.promise]? = some .pending then
            { S with promStates := S.promStates.set fr.promise (.linked p'),
                     fetches := S.fetches.set fid { fr with aborted := true } }
          else
            { S with fetches := S.fetches.set fid { fr with aborted := true } }
        | none =>
          { S with accessMap := (token, fr.promise) :: S.accessMap }

/-- The `onload` callback: the fetch's chained work (rewrite and
`downloadBlob`) resolved with `r`; settle the promise if the transport was
not aborted and the promise is still pending (a promise settles once). -/
def completeStep (S : SessionState) (fid : Nat) (r : DlResult) : SessionState :=
  match S.fetches[fid]? with
  | none => S
  | some fr =>
    if fr.aborted then S
    else if S.promStates[fr.promise]? = some .pending then
      { S with promStates := S.promStates.set fr.promise (.fulfilled r) }
    else S

/-- The `onerror` callback composed with the `catch` attached to
`accessCurrent`: the rejection is converted into a fulfilled error record
`{url: getErrorUrl(sourceUrl), error}`. -/
def failStep (S : SessionState) (fid : Nat) (e : String) : SessionState :=
  match S.fetches[fid]? with
  | none => S
  | some fr =>
    if fr.aborted then S
    else if S.promStates[fr.promise]? = some .pending then
      { S with promStates :=
          S.promStates.set fr.promise (.fulfilled ⟨getErrorUrl fr.srcUrl, none, none, some e⟩) }
    else S

/-- The value a promise yields, following `linked` promises (fuel-bounded).
-/
def observe (S : SessionState) : Nat → Nat → Option DlResult
  | 0, _ => none
  | fuel + 1, p =>
    match S.promStates[p]? with
    | some (.fulfilled r) => some r
    | some (.linked q) => observe S fuel q
    | _ => none

/-- A batch of logically concurrent `downloadFile` requests: each request's
synchronous prologue runs atomically before any transport callback fires. -/
def runRequests (S : SessionState) (opts : CaptureOptions) :
    List (String × Option String) → SessionState × List Nat
  | [] => (S, [])
  | (u, m) :: rest =>
    let r := requestStep S u m opts
    let rest' := runRequests r.1 opts rest
    (rest'.1, r.2 :: rest'.2)

/-- A concrete redirect scenario: request and settle
`https://example.com/b` (promise 0, fetch 0), then request
`https://example.com/a` (promise 1, fetch 1). -/
def c2State : SessionState :=
  (requestStep
    (completeStep
      (requestStep initSession "https://example.com/b" none ⟨.folder, false⟩).1
      0 ⟨"b.bin", some "b.bin", none, none⟩)
    "https://example.com/a" none ⟨.folder, false⟩).1

/-! ## The inline (singleHtml) packaging branch

The `"singleHtml"` branch of `capturer.downloadBlob` turns the blob into a
data URI (`scrapbook.readFileAsDataURL`), splices a `;filename=...;`
parameter in place of the first `;`, and appends the source URL's fragment.
-/

/-- The base64 alphabet character of a 6-bit value. -/
def b64Char (n : Nat) : Char :=
  if n < 26 then Char.ofNat (65 + n)
  else if n < 52 then Char.ofNat (97 + (n - 26))
  else if n < 62 then Char.ofNat (48 + (n - 52))
  else if n = 62 then '+'
  else '/'

/-- The 6-bit value of a base64 alphabet character. -/
def b64Val (c : Char) : Nat :=
  if 65 ≤ c.toNat ∧ c.toNat ≤ 90 then c.toNat - 65
  else if 97 ≤ c.toNat ∧ c.toNat ≤ 122 then c.toNat - 97 + 26
  else if 48 ≤ c.toNat ∧ c.toNat ≤ 57 then c.toNat - 48 + 52
  else if c = '+' then 62
  else 63

/-- Base64-encode a byte list: three bytes to four characters, `=`-padded.
-/
def b64Encode : List Nat → List Char
  | [] => []
  | [a] => [b64Char (a / 4), b64Char (a % 4 * 16), '=', '=']
  | [a, b] => [b64Char (a / 4), b64Char (a % 4 * 16 + b / 16), b64Char (b % 16 * 4), '=']
  | a :: b :: c :: rest =>
    b64Char (a / 4) :: b64Char (a % 4 * 16 + b / 16) :: b64Char (b % 16 * 4 + c / 64) ::
      b64Char (c % 64) :: b64Encode rest

/-- Base64-decode a character list. -/
def b64Decode : List Char → List Nat
  | c1 :: c2 :: c3 :: c4 :: rest =>
    if c3 = '=' then [b64Val c1 * 4 + b64Val c2 / 16]
    else if c4 = '=' then
      [b64Val c1 * 4 + b64Val c2 / 16, b64Val c2 % 16 * 16 + b64Val c3 / 4]
    else
      (b64Val c1 * 4 + b64Val c2 / 16) :: (b64Val c2 % 16 * 16 + b64Val c3 / 4) ::
        (b64Val c3 % 4 * 64 + b64Val c4) :: b64Decode rest
  | _ => []

/-- An uppercase hexadecimal digit character. -/
def hexDigit (n : Nat) : Char :=
  if n < 10 then Char.ofNat (48 + n) else Char.ofNat (65 + (n - 10))

/-- A character of the unreserved set of `encodeURIComponent`. -/
def uriUnreserved (c : Char) : Bool :=
  c.isAlphanum || ['-', '_', '.', '!', '~', '*', '\'', '(', ')'].contains c

/-- Modelled from the spec: JavaScript `encodeURIComponent`,
percent-encoding every character outside the unreserved set. -/
def encodeURIComponent (s : String) : String :=
  ⟨s.data.flatMap (fun c =>
    if uriUnreserved c then [c]
    else '%' :: hexDigit (c.toNat / 16 % 16) :: [hexDigit (c.toNat % 16)])⟩

/-- JavaScript `String.prototype.replace` with a one-character string
pattern: replace the first occurrence of the character. -/
def replaceFirstChar (s : List Char) (pat : Char) (repl : List Char) : List Char :=
  match s with
  | [] => []
  | c :: rest => if c = pat then repl ++ rest else c :: replaceFirstChar rest pat repl

/-- Modelled from the spec: `scrapbook.readFileAsDataURL`, reading a blob
as a base64 data URI `data:<mime>;base64,<payload>`. -/
def readFileAsDataURL (b : Blob) : String :=
  "data:" ++ b.type ++ ";base64," ++ (⟨b64Encode b.content⟩ : String)

/-- The `"singleHtml"` branch of `capturer.downloadBlob`: read the blob as
a data URI, splice `;filename=<encoded>;` in place of the first `;` when a
filename is present, and append the source URL's fragment. -/
def downloadBlobSingleHtml (b : Blob) (filename sourceUrl : String) : DlResult :=
  let dataUri := readFileAsDataURL b
  let dataUri :=
    if filename = "" then dataUri
    else (⟨replaceFirstChar dataUri.data ';'
      (";filename=" ++ encodeURIComponent filename ++ ";").data⟩ : String)
  { url := dataUri ++ (splitUrlByAnchor sourceUrl).2 }

/-- Decode a data-URI reference: drop the URL fragment, then base64-decode
everything after the first comma (thereby ignoring the media type and any
spliced filename parameter). -/
def decodeDataUriRef (s : String) : List Nat :=
  b64Decode (((splitUrlByAnchor s).1.data.dropWhile (fun c => c ≠ ',')).drop 1)

/-! ## Theorems -/

@[simp] theorem lowerStr_data (s : String) : (lowerStr s).data = s.data.map Char.toLower := rfl

theorem lowerStr_append (a b : String) : lowerStr (a ++ b) = lowerStr a ++ lowerStr b := by
  apply String.ext
  simp [lowerStr, String.data_append]

theorem splitUrlByAnchor_fst_idem (u : String) :
    (splitUrlByAnchor (splitUrlByAnchor u).1).1 = (splitUrlByAnchor u).1 := by
  apply String.ext
  simp [splitUrlByAnchor, List.takeWhile_takeWhile]

/-- C9, counterexample: the claim asserts the per-session capture state is
removed regardless of how the capture settles, in particular when it
rejects.  On a rejected capture the `captureInfo` entry is retained: the
deletion only happens in the fulfillment handler. -/
theorem captureTab_reject_retains_state :
    (captureTabSettle true (.rejected "network failure")).1 = true := by
  decide

/-- C9, amended: the `captureInfo` entry for the capture's `timeId` is
removed whenever the top-level capture fulfills — with a response object,
with an undefined response, or with an error record — but on a rejected
capture the deletion is skipped and the entry is retained unchanged. -/
theorem captureTab_settle_deletes_iff_fulfilled :
    (∀ (present : Bool) (r : Option DlResult),
      (captureTabSettle present (.fulfilled r)).1 = false) ∧
    (∀ (present : Bool) (e : String),
      (captureTabSettle present (.rejected e)).1 = present) := by
  constructor
  · intro present r
    cases r with
    | none => rfl
    | some resp => cases h : resp.error <;> simp [captureTabSettle, h]
  · intro present e
    rfl

theorem getLast?_take_eq (s : List Char) (i : Nat) (h0 : 0 < i) (h1 : i ≤ s.length) :
    (s.take i).getLast? = s[i - 1]? := by
  rw [List.getLast?_eq_getElem?]
  have hlen : (s.take i).length = i := by simp; omega
  rw [hlen, List.getElem?_take, if_pos (by omega)]

theorem wordAt_exists_iff (s w : List Char) (hw : w ≠ []) :
    (∃ i, i < s.length + 1 ∧ wordAt s w i = true) ↔ WordOccursIn s w := by
  have hwpos : 0 < w.length := List.length_pos.mpr hw
  constructor
  · rintro ⟨i, -, h⟩
    unfold wordAt at h
    simp only [Bool.and_eq_true, Bool.or_eq_true, beq_iff_eq, Bool.not_eq_true',
      decide_eq_true_eq] at h
    obtain ⟨⟨h1, h2⟩, h3⟩ := h
    have hlen : w.length ≤ s.length - i := by
      have hl := congrArg List.length h1
      simp only [List.length_take, List.length_drop] at hl
      omega
    have hipos : i < s.length := by
      rcases Nat.lt_or_ge i s.length with h' | h'
      · exact h'
      · exfalso; omega
    have hi : i + w.length ≤ s.length := by omega
    refine ⟨s.take i, s.drop (i + w.length), ?_, ?_, ?_⟩
    · conv_lhs => rw [← List.take_append_drop i s]
      rw [List.append_assoc]
      congr 1
      conv_lhs => rw [← List.take_append_drop w.length (s.drop i)]
      rw [h1, List.drop_drop]
    · intro c hc
      rw [Option.mem_def] at hc
      rcases Nat.eq_zero_or_pos i with hi0 | hi0
      · subst hi0; simp at hc
      · have h2' : wordChar (s.getD (i - 1) ' ') = false := by
          rcases h2 with h2 | h2
          · omega
          · exact h2
        rw [getLast?_take_eq s i hi0 (by omega)] at hc
        have hgd : s.getD (i - 1) ' ' = c := by
          rw [List.getD_eq_getElem?_getD, hc, Option.getD_some]
        rwa [hgd] at h2'
    · intro c hc
      rw [Option.mem_def] at hc
      rcases h3 with h3 | h3
      · rw [List.drop_eq_nil_of_le (by omega)] at hc
        simp at hc
      · rw [List.head?_drop] at hc
        have hgd : s.getD (i + w.length) ' ' = c := by
          rw [List.getD_eq_getElem?_getD, hc, Option.getD_some]
        rwa [hgd] at h3
  · rintro ⟨pre, suf, hs, hpre, hsuf⟩
    have hslen : s.length = pre.length + w.length + suf.length := by
      subst hs; simp [Nat.add_assoc]
    refine ⟨pre.length, by omega, ?_⟩
    have hdrop : s.drop pre.length = w ++ suf := by
      rw [hs, List.append_assoc, List.drop_left]
    have hdrop2 : s.drop (pre.length + w.length) = suf := by
      have hlen2 : (pre ++ w).length = pre.length + w.length := by simp
      rw [hs, ← hlen2, List.drop_left]
    unfold wordAt
    simp only [Bool.and_eq_true, Bool.or_eq_true, beq_iff_eq, Bool.not_eq_true',
      decide_eq_true_eq]
    refine ⟨⟨?_, ?_⟩, ?_⟩
    · rw [hdrop, List.take_left]
    · rcases List.eq_nil_or_concat pre with hnil | ⟨l, c, hcons⟩
      · left; simp [hnil]
      · right
        have hplen : 0 < pre.length := by subst hcons; simp
        have htake : s.take pre.length = pre := by
          rw [hs, List.append_assoc, List.take_left]
        have hlast : s[pre.length - 1]? = pre.getLast? := by
          rw [← getLast?_take_eq s pre.length hplen (by omega), htake]
        have hne : pre ≠ [] := by subst hcons; simp
        have hmem : pre.getLast? = some (pre.getLast hne) :=
          List.getLast?_eq_getLast pre hne
        rw [List.getD_eq_getElem?_getD, hlast, hmem, Option.getD_some]
        exact hpre _ hmem
    · rcases List.eq_nil_or_concat suf with hnil | ⟨l, c, hcons⟩
      · left; subst hnil
        simp only [List.length_nil] at hslen
        omega
      · right
        have hhead : s[pre.length + w.length]? = suf.head? := by
          rw [← List.head?_drop, hdrop2]
        have hne : suf ≠ [] := by subst hcons; simp
        have hmem : suf.head? = some (suf.head hne) := List.head?_eq_head hne
        rw [List.getD_eq_getElem?_getD, hhead, hmem, Option.getD_some]
        exact hsuf _ hmem

theorem compressibleType_iff (t : String) :
    compressibleType t = true ↔
      (strStarts t "text/" = true ∨ WordOccursIn t.data "xml".data ∨
        WordOccursIn t.data "json".data ∨ WordOccursIn t.data "javascript".data) := by
  unfold compressibleType
  simp only [Bool.or_eq_true, List.any_eq_true, List.mem_range, compressibleWords]
  constructor
  · rintro (h | ⟨i, hi, w, hw, hat⟩)
    · exact Or.inl h
    · right
      simp only [List.mem_cons, List.not_mem_nil, or_false] at hw
      rcases hw with rfl | rfl | rfl
      · exact Or.inl ((wordAt_exists_iff _ _ (by decide)).mp ⟨i, hi, hat⟩)
      · exact Or.inr (Or.inl ((wordAt_exists_iff _ _ (by decide)).mp ⟨i, hi, hat⟩))
      · exact Or.inr (Or.inr ((wordAt_exists_iff _ _ (by decide)).mp ⟨i, hi, hat⟩))
  · rintro (h | h | h | h)
    · exact Or.inl h
    all_goals right
    · obtain ⟨i, hi, hat⟩ := (wordAt_exists_iff _ _ (by decide)).mpr h
      exact ⟨i, hi, "xml", by simp, hat⟩
    · obtain ⟨i, hi, hat⟩ := (wordAt_exists_iff _ _ (by decide)).mpr h
      exact ⟨i, hi, "json", by simp, hat⟩
    · obtain ⟨i, hi, hat⟩ := (wordAt_exists_iff _ _ (by decide)).mpr h
      exact ⟨i, hi, "javascript", by simp, hat⟩

/-- C6, counterexample: a blob of MIME type `application/xmls` and size 128
contains `xml` as a substring and meets the size threshold, so the claim
demands strong compression, but the code stores the entry uncompressed: the
regex requires a word boundary after the matched word. -/
theorem zip_compression_substring_counterexample :
    containsSub "application/xmls".data "xml".data = true ∧
    128 ≤ (Blob.mk "application/xmls" (List.replicate 128 0)).size ∧
    (downloadBlobZip [] (Blob.mk "application/xmls" (List.replicate 128 0))
        "file.bin" "https://example.com/x").1.map (fun e => e.compression) =
      [Compression.STORE] := by
  decide

/-- C6, amended: the entry written by the zip branch of
`capturer.downloadBlob` is DEFLATE-compressed exactly when the blob's MIME
type starts with `text/` or contains `xml`, `json` or `javascript` as a
whole word — delimited on each side by a non-word character or an end of
the string — and the blob's size is at least 128 bytes; every other blob
is stored uncompressed. -/
theorem zipCompressionFor_eq_DEFLATE_iff (b : Blob) :
    zipCompressionFor b = .DEFLATE ↔ (compressibleType b.type = true ∧ 128 ≤ b.size) := by
  unfold zipCompressionFor
  rcases h1 : compressibleType b.type <;> rcases h2 : decide (128 ≤ b.size) <;>
    simp only [h1, h2, Bool.and_self, Bool.and_false, Bool.and_true, Bool.false_and,
      Bool.true_and, if_true, if_false, Bool.false_eq_true, false_and, and_false, true_and] <;>
    simp_all

/-- C6, amended: the entry written by the zip branch of
`capturer.downloadBlob` is DEFLATE-compressed exactly when the blob's MIME
type starts with `text/` or contains `xml`, `json` or `javascript` as a
whole word — delimited on each side by a non-word character or an end of
the string — and the blob's size is at least 128 bytes; every other blob
is stored uncompressed. -/
theorem zip_compression_characterization (zip : List ZipEntry) (b : Blob)
    (filename sourceUrl : String) :
    ∃ e, (downloadBlobZip zip b filename sourceUrl).1 = zip ++ [e] ∧
      e.path = filename ∧ e.data = .bytes b.content ∧
      (e.compression = .DEFLATE ↔
        ((strStarts b.type "text/" = true ∨ WordOccursIn b.type.data "xml".data ∨
          WordOccursIn b.type.data "json".data ∨ WordOccursIn b.type.data "javascript".data) ∧
          128 ≤ b.size)) ∧
      (e.compression = .STORE ↔ ¬ ((strStarts b.type "text/" = true ∨
          WordOccursIn b.type.data "xml".data ∨ WordOccursIn b.type.data "json".data ∨
          WordOccursIn b.type.data "javascript".data) ∧ 128 ≤ b.size)) := by
  have hiff : zipCompressionFor b = .DEFLATE ↔
      ((strStarts b.type "text/" = true ∨ WordOccursIn b.type.data "xml".data ∨
        WordOccursIn b.type.data "json".data ∨ WordOccursIn b.type.data "javascript".data) ∧
        128 ≤ b.size) :=
    (zipCompressionFor_eq_DEFLATE_iff b).trans
      (and_congr_left' (compressibleType_iff b.type))
  have hstore : zipCompressionFor b = .STORE ↔ ¬ zipCompressionFor b = .DEFLATE := by
    cases h : zipCompressionFor b <;> simp
  exact ⟨_, rfl, rfl, rfl, hiff, hstore.trans (not_congr hiff)⟩

/-- C5, counterexample: for a folder-mode capture whose main document's
content type is `application/xhtml+xml`, the code saves `index.xhtml` (the
real content) with auto-erase SET and the `index.html` redirect stub with
auto-erase NOT set — the opposite of the claim's assignment. -/
theorem folder_xhtml_autoerase_counterexample :
    ((saveDocumentFolder ⟨"application/xhtml+xml", "UTF-8", "<html/>", "T"⟩ true
        "index" "20230101000000000" "WebScrapBook" "https://example.com/" false).1.map
      (fun c => (c.filename, c.autoErase))) =
      [("index.xhtml", true), ("index.html", false)] := by
  decide

/-- C5, amended: in folder mode every secondary resource download (the
folder branch of `downloadBlob`) is auto-erased, every document saved for a
non-main frame is auto-erased, and for the main frame the download carrying
the finally returned primary filename is never auto-erased while every
other download of that save is auto-erased.  In particular for an
`application/xhtml+xml` main document the `index.xhtml` holding the real
content IS auto-erased and the `index.html` redirect stub is NOT. -/
theorem folder_autoerase_discipline :
    (∀ (b : Blob) (filename sourceUrl timeId folder : String),
      (downloadBlobFolder b filename sourceUrl timeId folder).1.autoErase = true) ∧
    (∀ (d : DocData) (dn tid sf su : String) (a : Bool),
      ∀ c ∈ (saveDocumentFolder d false dn tid sf su a).1, c.autoErase = true) ∧
    (∀ (d : DocData) (dn tid sf su : String) (a : Bool),
      ∃ c ∈ (saveDocumentFolder d true dn tid sf su a).1,
        some c.filename = (saveDocumentFolder d true dn tid sf su a).2.filename ∧
        c.autoErase = false ∧
        ∀ c' ∈ (saveDocumentFolder d true dn tid sf su a).1, c' ≠ c → c'.autoErase = true) := by
  refine ⟨fun b fn su tid f => rfl, ?_, ?_⟩
  · intro d dn tid sf su a c hc
    simp only [saveDocumentFolder, Bool.false_and, Bool.false_eq_true, if_false,
      Bool.not_false, Bool.true_or, List.mem_singleton] at hc
    subst hc; rfl
  · intro d dn tid sf su a
    rcases hx : docExt d.mime == ".xhtml" with _ | _
    · simp only [saveDocumentFolder, hx, Bool.true_and, Bool.false_eq_true, if_false]
      refine ⟨_, List.mem_singleton.mpr rfl, rfl, ?_, ?_⟩
      · simp [hx]
      · intro c' hc' hne
        exact absurd (List.mem_singleton.mp hc') hne
    · simp only [saveDocumentFolder, hx, Bool.true_and, if_true]
      refine ⟨_, List.mem_cons.mpr (Or.inr (List.mem_singleton.mpr rfl)), rfl, rfl, ?_⟩
      intro c' hc' hne
      rcases List.mem_cons.mp hc' with h | h
      · subst h; simp [hx]
      · exact absurd (List.mem_singleton.mp h) hne

theorem isPrefixOf_append_self (l t : List Char) : l.isPrefixOf (l ++ t) = true := by
  induction l with
  | nil => rw [List.nil_append]; cases t <;> rfl
  | cons c l ih => simp [List.isPrefixOf, ih]

theorem strAppend_assoc (a b c : String) : a ++ b ++ c = a ++ (b ++ c) :=
  String.ext (by simp [String.data_append, List.append_assoc])

theorem strStarts_of_append (p t : String) : strStarts (p ++ t) p = true := by
  unfold strStarts
  rw [String.data_append]
  exact isPrefixOf_append_self p.data t.data

/-- C7: in the maff (timestamped-archive) packaging, every archive entry
added by `saveDocument` or `downloadBlob` lives under the `timeId + "/"`
subfolder, and saving the main document adds under that prefix both the
index document itself and an `index.rdf` manifest recording the escaped
original source URL, the title, the archive timestamp derived from the
session id, the index filename, and the charset `UTF-8`. -/
theorem maff_session_folder_layout :
    (∀ (zip : List ZipEntry) (d : DocData) (fim : Bool)
        (dn tid su : String) (a : Bool),
      ∀ e ∈ (saveDocumentMaff zip d fim dn tid su a).1,
        e ∈ zip ∨ strStarts e.path (tid ++ "/") = true) ∧
    (∀ (zip : List ZipEntry) (b : Blob) (fn su tid : String),
      ∀ e ∈ (downloadBlobMaff zip b fn su tid).1,
        e ∈ zip ∨ strStarts e.path (tid ++ "/") = true) ∧
    (∀ (zip : List ZipEntry) (d : DocData) (dn tid su : String) (a : Bool),
      (∃ e ∈ (saveDocumentMaff zip d true dn tid su a).1,
        e.path = tid ++ "/" ++ validateFilename (dn ++ docExt d.mime) a ∧
        e.data = .text d.content) ∧
      (∃ e ∈ (saveDocumentMaff zip d true dn tid su a).1,
        e.path = tid ++ "/" ++ "index.rdf" ∧
        e.data = .text (rdfContent su d.title tid (validateFilename (dn ++ docExt d.mime) a)) ∧
        StrContains (rdfContent su d.title tid (validateFilename (dn ++ docExt d.mime) a))
          ("<MAF:originalurl RDF:resource=\"" ++ escapeHtml su ++ "\"/>") ∧
        StrContains (rdfContent su d.title tid (validateFilename (dn ++ docExt d.mime) a))
          ("<MAF:title RDF:resource=\"" ++ escapeHtml d.title ++ "\"/>") ∧
        StrContains (rdfContent su d.title tid (validateFilename (dn ++ docExt d.mime) a))
          ("<MAF:archivetime RDF:resource=\"" ++ escapeHtml (idToUTCString tid) ++ "\"/>") ∧
        StrContains (rdfContent su d.title tid (validateFilename (dn ++ docExt d.mime) a))
          ("<MAF:indexfilename RDF:resource=\"" ++
            validateFilename (dn ++ docExt d.mime) a ++ "\"/>") ∧
        StrContains (rdfContent su d.title tid (validateFilename (dn ++ docExt d.mime) a))
          "<MAF:charset RDF:resource=\"UTF-8\"/>")) := by
  have hpre : ∀ tid x : String, strStarts (tid ++ "/" ++ x) (tid ++ "/") = true :=
    fun tid x => strStarts_of_append (tid ++ "/") x
  refine ⟨?_, ?_, ?_⟩
  · intro zip d fim dn tid su a e he
    unfold saveDocumentMaff at he
    rcases fim with _ | _
    · simp only [Bool.false_eq_true, if_false, List.mem_append, List.mem_singleton] at he
      rcases he with he | rfl
      · exact Or.inl he
      · exact Or.inr (hpre tid _)
    · rcases hx : docExt d.mime == ".xhtml" with _ | _ <;>
        simp only [hx, Bool.false_eq_true, if_true, if_false,
          List.mem_append, List.mem_singleton] at he
      · rcases he with (he | rfl) | rfl
        · exact Or.inl he
        · exact Or.inr (hpre tid _)
        · exact Or.inr (hpre tid _)
      · rcases he with ((he | rfl) | rfl) | rfl
        · exact Or.inl he
        · exact Or.inr (hpre tid _)
        · exact Or.inr (hpre tid _)
        · exact Or.inr (hpre tid _)
  · intro zip b fn su tid e he
    unfold downloadBlobMaff at he
    simp only [List.mem_append, List.mem_singleton] at he
    rcases he with he | rfl
    · exact Or.inl he
    · exact Or.inr (hpre tid _)
  · intro zip d dn tid su a
    constructor
    · refine ⟨⟨tid ++ "/" ++ validateFilename (dn ++ docExt d.mime) a,
        .text d.content, .DEFLATE⟩, ?_, rfl, rfl⟩
      rcases hx : docExt d.mime == ".xhtml" with _ | _ <;>
        simp [saveDocumentMaff, hx]
    · refine ⟨⟨tid ++ "/" ++ "index.rdf",
        .text (rdfContent su d.title tid (validateFilename (dn ++ docExt d.mime) a)),
        .DEFLATE⟩, ?_, rfl, rfl, ?_, ?_, ?_, ?_, ?_⟩
      · rcases hx : docExt d.mime == ".xhtml" with _ | _ <;>
          simp [saveDocumentMaff, hx]
      · exact ⟨rdfHead,
          rdfSep ++
            ("<MAF:title RDF:resource=\"" ++ escapeHtml d.title ++ "\"/>") ++ rdfSep ++
            ("<MAF:archivetime RDF:resource=\"" ++ escapeHtml (idToUTCString tid) ++ "\"/>") ++
            rdfSep ++
            ("<MAF:indexfilename RDF:resource=\"" ++
              validateFilename (dn ++ docExt d.mime) a ++ "\"/>") ++ rdfSep ++
            "<MAF:charset RDF:resource=\"UTF-8\"/>" ++ rdfTail,
          by simp only [rdfContent, strAppend_assoc]⟩
      · exact ⟨rdfHead ++
            ("<MAF:originalurl RDF:resource=\"" ++ escapeHtml su ++ "\"/>") ++ rdfSep,
          rdfSep ++
            ("<MAF:archivetime RDF:resource=\"" ++ escapeHtml (idToUTCString tid) ++ "\"/>") ++
            rdfSep ++
            ("<MAF:indexfilename RDF:resource=\"" ++
              validateFilename (dn ++ docExt d.mime) a ++ "\"/>") ++ rdfSep ++
            "<MAF:charset RDF:resource=\"UTF-8\"/>" ++ rdfTail,
          by simp only [rdfContent, strAppend_assoc]⟩
      · exact ⟨rdfHead ++
            ("<MAF:originalurl RDF:resource=\"" ++ escapeHtml su ++ "\"/>") ++ rdfSep ++
            ("<MAF:title RDF:resource=\"" ++ escapeHtml d.title ++ "\"/>") ++ rdfSep,
          rdfSep ++
            ("<MAF:indexfilename RDF:resource=\"" ++
              validateFilename (dn ++ docExt d.mime) a ++ "\"/>") ++ rdfSep ++
            "<MAF:charset RDF:resource=\"UTF-8\"/>" ++ rdfTail,
          by simp only [rdfContent, strAppend_assoc]⟩
      · exact ⟨rdfHead ++
            ("<MAF:originalurl RDF:resource=\"" ++ escapeHtml su ++ "\"/>") ++ rdfSep ++
            ("<MAF:title RDF:resource=\"" ++ escapeHtml d.title ++ "\"/>") ++ rdfSep ++
            ("<MAF:archivetime RDF:resource=\"" ++ escapeHtml (idToUTCString tid) ++ "\"/>") ++
            rdfSep,
          rdfSep ++ "<MAF:charset RDF:resource=\"UTF-8\"/>" ++ rdfTail,
          by simp only [rdfContent, strAppend_assoc]⟩
      · exact ⟨rdfHead ++
            ("<MAF:originalurl RDF:resource=\"" ++ escapeHtml su ++ "\"/>") ++ rdfSep ++
            ("<MAF:title RDF:resource=\"" ++ escapeHtml d.title ++ "\"/>") ++ rdfSep ++
            ("<MAF:archivetime RDF:resource=\"" ++ escapeHtml (idToUTCString tid) ++ "\"/>") ++
            rdfSep ++
            ("<MAF:indexfilename RDF:resource=\"" ++
              validateFilename (dn ++ docExt d.mime) a ++ "\"/>") ++ rdfSep,
          rdfTail,
          by simp only [rdfContent, strAppend_assoc]⟩

theorem charToDigit_digitChar : ∀ d, d < 10 → charToDigit (Nat.digitChar d) = d := by
  decide

theorem toLower_digitChar : ∀ d, d < 10 → (Nat.digitChar d).toLower = Nat.digitChar d := by
  decide

theorem toDigitsCore_eq_decDigits (n : Nat) : ∀ fuel ds, n < fuel →
    Nat.toDigitsCore 10 fuel n ds = decDigits n ++ ds := by
  induction n using Nat.strong_induction_on with
  | _ n ih =>
    intro fuel ds hfuel
    match fuel, hfuel with
    | fuel + 1, hfuel =>
      rw [Nat.toDigitsCore]
      by_cases h : n / 10 = 0
      · have hn : n < 10 := by omega
        simp only [h, if_pos rfl]
        rw [decDigits, if_pos hn, Nat.mod_eq_of_lt hn]
        rfl
      · have hn : 10 ≤ n := by
          by_contra hlt
          exact h (Nat.div_eq_of_lt (by omega))
        have hdivlt : n / 10 < n := Nat.div_lt_self (by omega) (by omega)
        have hfuel2 : n / 10 < fuel := by omega
        simp only [if_neg h]
        rw [ih (n / 10) hdivlt fuel _ hfuel2]
        conv_rhs => rw [decDigits, if_neg (show ¬ n < 10 by omega)]
        rw [List.append_assoc]
        rfl

theorem natRepr_eq_decDigits (n : Nat) : Nat.repr n = (⟨decDigits n⟩ : String) := by
  show (Nat.toDigits 10 n).asString = _
  rw [Nat.toDigits, toDigitsCore_eq_decDigits n (n + 1) [] (by omega), List.append_nil]
  rfl

theorem foldl_digit_append (l : List Char) (c : Char) :
    decVal (l ++ [c]) = decVal l * 10 + charToDigit c := by
  unfold decVal
  rw [List.foldl_append]
  rfl

theorem decVal_decDigits (n : Nat) : decVal (decDigits n) = n := by
  induction n using Nat.strong_induction_on with
  | _ n ih =>
    by_cases h : n < 10
    · rw [decDigits, if_pos h]
      show 0 * 10 + charToDigit (Nat.digitChar n) = n
      rw [charToDigit_digitChar n h]
      omega
    · rw [decDigits, if_neg h, foldl_digit_append,
        ih (n / 10) (Nat.div_lt_self (by omega) (by omega)),
        charToDigit_digitChar (n % 10) (Nat.mod_lt n (by omega))]
      omega

theorem decDigits_injective : Function.Injective decDigits := by
  intro a b h
  have := congrArg decVal h
  rwa [decVal_decDigits, decVal_decDigits] at this

theorem natRepr_injective : Function.Injective Nat.repr := by
  intro a b h
  rw [natRepr_eq_decDigits, natRepr_eq_decDigits] at h
  exact decDigits_injective (congrArg String.data h)

theorem decDigits_ne_nil (n : Nat) : decDigits n ≠ [] := by
  by_cases h : n < 10
  · rw [decDigits, if_pos h]; simp
  · rw [decDigits, if_neg h]; simp

theorem natRepr_ne_empty (n : Nat) : (Nat.repr n).data ≠ [] := by
  rw [natRepr_eq_decDigits]
  exact decDigits_ne_nil n

theorem toLower_decDigits (n : Nat) : (decDigits n).map Char.toLower = decDigits n := by
  induction n using Nat.strong_induction_on with
  | _ n ih =>
    by_cases h : n < 10
    · rw [decDigits, if_pos h]
      simp [toLower_digitChar n h]
    · rw [decDigits, if_neg h]
      rw [List.map_append, ih (n / 10) (Nat.div_lt_self (by omega) (by omega))]
      simp [toLower_digitChar (n % 10) (Nat.mod_lt n (by omega))]

theorem lowerStr_natRepr (n : Nat) : lowerStr (Nat.repr n) = Nat.repr n := by
  apply String.ext
  rw [lowerStr_data, natRepr_eq_decDigits]
  exact toLower_decDigits n

theorem lowerStr_candidateName (b e : String) (k : Nat) :
    lowerStr (candidateName b e k) = candidateName (lowerStr b) (lowerStr e) k := by
  cases k with
  | zero => exact lowerStr_append b e
  | succ k =>
    show lowerStr (b ++ "-" ++ Nat.repr (k + 1) ++ e) = _
    rw [lowerStr_append, lowerStr_append, lowerStr_append, lowerStr_natRepr]
    have h1 : lowerStr "-" = "-" := by decide
    rw [h1]
    rfl

theorem candidateName_injective (b e : String) : Function.Injective (candidateName b e) := by
  have hdash : ("-" : String).data.length = 1 := by decide
  intro j k h
  match j, k with
  | 0, 0 => rfl
  | 0, k + 1 =>
    exfalso
    have hd := congrArg (fun s => s.data.length) h
    simp only [candidateName, String.data_append, List.length_append] at hd
    have hr := List.length_pos.mpr (natRepr_ne_empty (k + 1))
    omega
  | j + 1, 0 =>
    exfalso
    have hd := congrArg (fun s => s.data.length) h
    simp only [candidateName, String.data_append, List.length_append] at hd
    have hr := List.length_pos.mpr (natRepr_ne_empty (j + 1))
    omega
  | j + 1, k + 1 =>
    have hd := congrArg String.data h
    simp only [candidateName, String.data_append, List.append_assoc] at hd
    have hd1 := List.append_cancel_left hd
    have hd2 := List.append_cancel_left hd1
    have hd3 := List.append_cancel_right hd2
    exact natRepr_injective (String.ext hd3)

theorem exists_free_candidate (files : List String) (b e : String) :
    ∃ j, j ≤ files.length ∧ lowerStr (candidateName b e j) ∉ files := by
  by_contra hall
  push_neg at hall
  have hinj : Function.Injective (fun j => lowerStr (candidateName b e j)) := by
    intro x y hxy
    simp only [lowerStr_candidateName] at hxy
    exact candidateName_injective (lowerStr b) (lowerStr e) hxy
  have hsub : (Finset.range (files.length + 1)).image
      (fun j => lowerStr (candidateName b e j)) ⊆ files.toFinset := by
    intro x hx
    simp only [Finset.mem_image, Finset.mem_range] at hx
    obtain ⟨j, hj, rfl⟩ := hx
    exact List.mem_toFinset.mpr (hall j (by omega))
  have hcard := Finset.card_le_card hsub
  rw [Finset.card_image_of_injective _ hinj, Finset.card_range] at hcard
  have hlen := files.toFinset_card_le
  omega

theorem uniqLoop_free (files : List String) (b e : String) :
    ∀ (fuel count : Nat),
      (∃ j, j < fuel ∧ lowerStr (candidateName b e (count + j)) ∉ files) →
      lowerStr (uniqLoop files b e fuel count) ∉ files ∧
      ∃ k, uniqLoop files b e fuel count = candidateName b e k := by
  intro fuel
  induction fuel with
  | zero =>
    rintro count ⟨j, hj, -⟩
    omega
  | succ fuel ih =>
    rintro count ⟨j, hj, hfree⟩
    by_cases hmem : lowerStr (candidateName b e count) ∈ files
    · have hstep : uniqLoop files b e (fuel + 1) count = uniqLoop files b e fuel (count + 1) := by
        rw [uniqLoop, if_pos hmem]
      rw [hstep]
      apply ih
      have hj0 : j ≠ 0 := by
        rintro rfl
        exact hfree (by rw [Nat.add_zero]; exact hmem)
      refine ⟨j - 1, by omega, ?_⟩
      rw [show count + 1 + (j - 1) = count + j by omega]
      exact hfree
    · have hstep : uniqLoop files b e (fuel + 1) count = candidateName b e count := by
        rw [uniqLoop, if_neg hmem]
      rw [hstep]
      exact ⟨hmem, count, rfl⟩

theorem getUniqueFilename_spec (files : List String) (fn : Option String) :
    lowerStr (getUniqueFilename files fn).1 ∉ files ∧
    (getUniqueFilename files fn).2 = lowerStr (getUniqueFilename files fn).1 :: files ∧
    ∃ k, (getUniqueFilename files fn).1 = candidateName (allocBase fn) (allocExt fn) k := by
  obtain ⟨j, hj, hfree⟩ := exists_free_candidate files (allocBase fn) (allocExt fn)
  have h := uniqLoop_free files (allocBase fn) (allocExt fn) (files.length + 1) 0
    ⟨j, by omega, by rw [Nat.zero_add]; exact hfree⟩
  exact ⟨h.1, rfl, h.2⟩

theorem runAllocations_subset (reqs : List (Option String)) :
    ∀ files, ∀ x ∈ files, x ∈ (runAllocations files reqs).2 := by
  induction reqs with
  | nil => intro files x hx; exact hx
  | cons fn rest ih =>
    intro files x hx
    show x ∈ (runAllocations (getUniqueFilename files fn).2 rest).2
    apply ih
    rw [(getUniqueFilename_spec files fn).2.1]
    exact List.mem_cons_of_mem _ hx

theorem runAllocations_results (reqs : List (Option String)) :
    ∀ files, ∀ r ∈ (runAllocations files reqs).1,
      lowerStr r ∉ files ∧ lowerStr r ∈ (runAllocations files reqs).2 := by
  induction reqs with
  | nil =>
    intro files r hr
    simp [runAllocations] at hr
  | cons fn rest ih =>
    intro files r hr
    simp only [runAllocations] at hr
    obtain hr | hr := List.mem_cons.mp hr
    · subst hr
      refine ⟨(getUniqueFilename_spec files fn).1, ?_⟩
      show lowerStr _ ∈ (runAllocations (getUniqueFilename files fn).2 rest).2
      apply runAllocations_subset rest _
      rw [(getUniqueFilename_spec files fn).2.1]
      exact List.mem_cons_self _ _
    · have hres := ih (getUniqueFilename files fn).2 r hr
      refine ⟨?_, hres.2⟩
      intro hmem
      apply hres.1
      rw [(getUniqueFilename_spec files fn).2.1]
      exact List.mem_cons_of_mem _ hmem

theorem runAllocations_pairwise (reqs : List (Option String)) :
    ∀ files, List.Pairwise (fun a b => lowerStr a ≠ lowerStr b) (runAllocations files reqs).1 := by
  induction reqs with
  | nil => intro files; simp [runAllocations]
  | cons fn rest ih =>
    intro files
    simp only [runAllocations]
    refine List.Pairwise.cons ?_ (ih _)
    intro y hy heq
    have hres := (runAllocations_results rest (getUniqueFilename files fn).2 y hy).1
    apply hres
    rw [(getUniqueFilename_spec files fn).2.1, ← heq]
    exact List.mem_cons_self _ _

theorem runAllocations_shape (reqs : List (Option String)) :
    ∀ files p, p ∈ reqs.zip (runAllocations files reqs).1 →
      ∃ k, p.2 = candidateName (allocBase p.1) (allocExt p.1) k := by
  induction reqs with
  | nil => intro files p hp; simp at hp
  | cons fn rest ih =>
    intro files p hp
    simp only [runAllocations] at hp
    rw [List.zip_cons_cons] at hp
    obtain hp | hp := List.mem_cons.mp hp
    · subst hp
      exact (getUniqueFilename_spec files fn).2.2
    · exact ih _ p hp

/-- C4: across any sequence of `getUniqueFilename` calls in one session
(whose filename set is seeded with the reserved defaults), the returned
names are pairwise distinct case-insensitively, never equal
case-insensitively to `index.rdf` or `index.dat`, each of the form
`base`/`base-N` around the request's extension, and every returned name's
lowercase form ends up recorded in the session's filename set (the
allocation being a total function, it always terminates). -/
theorem unique_filename_allocation (reqs : List (Option String)) :
    List.Pairwise (fun a b => lowerStr a ≠ lowerStr b)
      (runAllocations defaultFilesSet reqs).1 ∧
    (∀ r ∈ (runAllocations defaultFilesSet reqs).1,
      lowerStr r ≠ "index.rdf" ∧ lowerStr r ≠ "index.dat") ∧
    (∀ p ∈ reqs.zip (runAllocations defaultFilesSet reqs).1,
      ∃ k, p.2 = candidateName (allocBase p.1) (allocExt p.1) k) ∧
    (∀ r ∈ (runAllocations defaultFilesSet reqs).1,
      lowerStr r ∈ (runAllocations defaultFilesSet reqs).2) := by
  refine ⟨runAllocations_pairwise reqs defaultFilesSet, ?_, ?_, ?_⟩
  · intro r hr
    have hres := (runAllocations_results reqs defaultFilesSet r hr).1
    constructor
    · intro heq
      exact hres (by rw [heq]; exact List.mem_cons_self _ _)
    · intro heq
      exact hres (by rw [heq]; exact List.mem_cons_of_mem _ (List.mem_cons_self _ _))
  · exact runAllocations_shape reqs defaultFilesSet
  · intro r hr
    exact (runAllocations_results reqs defaultFilesSet r hr).2

theorem candidateName_untitled (k : Nat) :
    candidateName "untitled" "" k = "untitled" ∨
    ∃ n, 1 ≤ n ∧ candidateName "untitled" "" k = "untitled-" ++ Nat.repr n := by
  have hnil : ("" : String).data = [] := by decide
  have hdash : ("untitled-" : String).data = ("untitled" : String).data ++ ("-" : String).data := by
    decide
  cases k with
  | zero =>
    left
    apply String.ext
    simp [candidateName, String.data_append, hnil]
  | succ k =>
    right
    refine ⟨k + 1, by omega, ?_⟩
    apply String.ext
    simp [candidateName, String.data_append, hnil, hdash, List.append_assoc]

theorem allocBase_untitled_none : allocBase none = "untitled" := by decide

theorem allocExt_untitled_none : allocExt none = "" := by decide

theorem allocBase_untitled_empty : allocBase (some "") = "untitled" := by decide

theorem allocExt_untitled_empty : allocExt (some "") = "" := by decide

/-- C10: `getUniqueFilename` never fails on a missing or empty desired
filename: the base `"untitled"` is substituted, the returned name is
`"untitled"` or an `"untitled-N"` variant (N ≥ 1), its lowercase form was
free in the session's set, and it is recorded in the set like any other
allocation. -/
theorem untitled_allocation (files : List String) :
    (((getUniqueFilename files none).1 = "untitled" ∨
        ∃ n, 1 ≤ n ∧ (getUniqueFilename files none).1 = "untitled-" ++ Nat.repr n) ∧
      lowerStr (getUniqueFilename files none).1 ∉ files ∧
      (getUniqueFilename files none).2 =
        lowerStr (getUniqueFilename files none).1 :: files) ∧
    (((getUniqueFilename files (some "")).1 = "untitled" ∨
        ∃ n, 1 ≤ n ∧ (getUniqueFilename files (some "")).1 = "untitled-" ++ Nat.repr n) ∧
      lowerStr (getUniqueFilename files (some "")).1 ∉ files ∧
      (getUniqueFilename files (some "")).2 =
        lowerStr (getUniqueFilename files (some "")).1 :: files) := by
  constructor
  · obtain ⟨hfree, hins, k, hk⟩ := getUniqueFilename_spec files none
    refine ⟨?_, hfree, hins⟩
    rw [hk, allocBase_untitled_none, allocExt_untitled_none]
    exact candidateName_untitled k
  · obtain ⟨hfree, hins, k, hk⟩ := getUniqueFilename_spec files (some "")
    refine ⟨?_, hfree, hins⟩
    rw [hk, allocBase_untitled_empty, allocExt_untitled_empty]
    exact candidateName_untitled k

theorem requestStep_memo (S : SessionState) (u : String) (m : Option String)
    (opts : CaptureOptions) (p : Nat)
    (hmem : lookupA (getAccessToken (splitUrlByAnchor u).1 m) S.accessMap = some p) :
    requestStep S u m opts = (S, p) := by
  simp only [requestStep, hmem]

theorem runRequests_memo (S : SessionState) (opts : CaptureOptions) (U : String)
    (M : Option String) (p : Nat)
    (hmem : lookupA (getAccessToken U M) S.accessMap = some p) :
    ∀ reqs, (∀ r ∈ reqs, (splitUrlByAnchor r.1).1 = U ∧ r.2 = M) →
      runRequests S opts reqs = (S, List.replicate reqs.length p) := by
  intro reqs
  induction reqs with
  | nil => intro _; rfl
  | cons r rest ih =>
    intro hsame
    obtain ⟨hu, hm⟩ := hsame r (List.mem_cons_self r rest)
    have hstep : requestStep S r.1 r.2 opts = (S, p) :=
      requestStep_memo S r.1 r.2 opts p (by rw [hu, hm]; exact hmem)
    have hrest := ih (fun x hx => hsame x (List.mem_cons_of_mem r hx))
    obtain ⟨u', m'⟩ := r
    simp only [runRequests, hstep, hrest, List.length_cons, List.replicate_succ]

/-- C1: logically concurrent `downloadFile` requests for one
fragment-stripped non-data URL and one rewrite method, in a session with no
entry for that token, issue exactly one transport fetch; every request
returns the same promise, so all callers observe an equal result object. -/
theorem concurrent_requests_single_fetch (S : SessionState) (opts : CaptureOptions)
    (reqs : List (String × Option String)) (U : String) (M : Option String)
    (hne : reqs ≠ [])
    (hsame : ∀ r ∈ reqs, (splitUrlByAnchor r.1).1 = U ∧ r.2 = M)
    (hnotdata : strStarts U "data:" = false)
    (hfresh : lookupA (getAccessToken U M) S.accessMap = none) :
    (runRequests S opts reqs).1.fetches.length = S.fetches.length + 1 ∧
    (runRequests S opts reqs).2 = List.replicate reqs.length S.promStates.length ∧
    (∀ (T : SessionState) (fuel : Nat) (p q : Nat),
      p ∈ (runRequests S opts reqs).2 → q ∈ (runRequests S opts reqs).2 →
      observe T fuel p = observe T fuel q) := by
  obtain ⟨r0, rest, rfl⟩ : ∃ r0 rest, reqs = r0 :: rest := by
    cases reqs with
    | nil => exact absurd rfl hne
    | cons a l => exact ⟨a, l, rfl⟩
  obtain ⟨hu, hm⟩ := hsame r0 (List.mem_cons_self r0 rest)
  obtain ⟨u, m⟩ := r0
  have hu' : (splitUrlByAnchor u).1 = U := hu
  have hm' : m = M := hm
  subst hu'
  subst hm'
  have hstep : requestStep S u m opts =
      ({ accessMap :=
           (getAccessToken (splitUrlByAnchor u).1 m, S.promStates.length) :: S.accessMap,
         promStates := S.promStates ++ [PromState.pending],
         fetches :=
           S.fetches ++ [⟨u, (splitUrlByAnchor u).1, m, S.promStates.length, false⟩] },
       S.promStates.length) := by
    simp only [requestStep, hfresh, hnotdata, Bool.false_eq_true, if_false]
  have hlook : lookupA (getAccessToken (splitUrlByAnchor u).1 m)
      ((getAccessToken (splitUrlByAnchor u).1 m, S.promStates.length) :: S.accessMap) =
      some S.promStates.length := by
    simp [lookupA]
  have hrest := runRequests_memo
    ({ accessMap :=
         (getAccessToken (splitUrlByAnchor u).1 m, S.promStates.length) :: S.accessMap,
       promStates := S.promStates ++ [PromState.pending],
       fetches :=
         S.fetches ++ [⟨u, (splitUrlByAnchor u).1, m, S.promStates.length, false⟩] })
    opts (splitUrlByAnchor u).1 m S.promStates.length hlook rest
    (fun x hx => hsame x (List.mem_cons_of_mem _ hx))
  have hres : (runRequests S opts ((u, m) :: rest)).2 =
      List.replicate ((u, m) :: rest).length S.promStates.length := by
    simp only [runRequests, hstep, hrest, List.length_cons, List.replicate_succ]
  refine ⟨?_, hres, ?_⟩
  · simp only [runRequests, hstep, hrest, List.length_append, List.length_singleton]
  · intro T fuel p q hp hq
    rw [hres] at hp hq
    rw [List.eq_of_mem_replicate hp, List.eq_of_mem_replicate hq]

/-- C1, witness: two concurrent requests for `https://example.com/a`
differing only in fragment issue one fetch and return the same promise. -/
theorem concurrent_requests_single_fetch_witness :
    (runRequests initSession ⟨.folder, false⟩
        [("https://example.com/a#x", none), ("https://example.com/a#y", none)]).1.fetches.length =
      initSession.fetches.length + 1 ∧
    (runRequests initSession ⟨.folder, false⟩
        [("https://example.com/a#x", none), ("https://example.com/a#y", none)]).2 =
      List.replicate
        ([("https://example.com/a#x", none), ("https://example.com/a#y", none)] :
          List (String × Option String)).length
        initSession.promStates.length :=
  ⟨(concurrent_requests_single_fetch initSession ⟨.folder, false⟩
      [("https://example.com/a#x", none), ("https://example.com/a#y", none)]
      "https://example.com/a" none (by decide) (by decide) (by decide) (by decide)).1,
   (concurrent_requests_single_fetch initSession ⟨.folder, false⟩
      [("https://example.com/a#x", none), ("https://example.com/a#y", none)]
      "https://example.com/a" none (by decide) (by decide) (by decide) (by decide)).2.1⟩

/-- C2: when a fetch's response URL differs after fragment stripping from
the request URL then, if the session already holds a promise for the
resolved URL's token, the request's promise is resolved from that prior
entry (observing the prior entry's settled result), the transport call is
aborted and the access map is unchanged; otherwise the resolved URL's token
is registered for the same promise. -/
theorem redirect_merge (S : SessionState) (fid : Nat) (fr : FetchRec)
    (responseUrl : String)
    (hfr : S.fetches[fid]? = some fr)
    (hnab : fr.aborted = false)
    (hpend : S.promStates[fr.promise]? = some PromState.pending)
    (hdiff : (splitUrlByAnchor responseUrl).1 ≠ fr.srcUrlMain) :
    (∀ p', lookupA (getAccessToken (splitUrlByAnchor responseUrl).1 fr.method)
        S.accessMap = some p' →
      (headersStep S fid responseUrl).promStates[fr.promise]? = some (.linked p') ∧
      ((headersStep S fid responseUrl).fetches[fid]?).map FetchRec.aborted = some true ∧
      (headersStep S fid responseUrl).accessMap = S.accessMap ∧
      (∀ fuel r, observe (headersStep S fid responseUrl) fuel p' = some r →
        observe (headersStep S fid responseUrl) (fuel + 1) fr.promise = some r)) ∧
    (lookupA (getAccessToken (splitUrlByAnchor responseUrl).1 fr.method)
        S.accessMap = none →
      (headersStep S fid responseUrl).accessMap =
        (getAccessToken (splitUrlByAnchor responseUrl).1 fr.method, fr.promise) ::
          S.accessMap ∧
      (headersStep S fid responseUrl).promStates = S.promStates) := by
  have hplen : fr.promise < S.promStates.length :=
    (List.getElem?_eq_some_iff.mp hpend).1
  have hflen : fid < S.fetches.length :=
    (List.getElem?_eq_some_iff.mp hfr).1
  constructor
  · intro p' hp'
    have hS' : headersStep S fid responseUrl =
        { S with promStates := S.promStates.set fr.promise (.linked p'),
                 fetches := S.fetches.set fid { fr with aborted := true } } := by
      simp [headersStep, hfr, hnab, hdiff, hp', hpend]
    have hlinked : (headersStep S fid responseUrl).promStates[fr.promise]? =
        some (.linked p') := by
      rw [hS']
      simp [List.getElem?_set, hplen]
    refine ⟨hlinked, ?_, by rw [hS'], ?_⟩
    · rw [hS']
      simp [List.getElem?_set, hflen]
    · intro fuel r hr
      simp only [observe, hlinked]
      exact hr
  · intro hnone
    have hS' : headersStep S fid responseUrl =
        { S with accessMap :=
            (getAccessToken (splitUrlByAnchor responseUrl).1 fr.method, fr.promise) ::
              S.accessMap } := by
      simp [headersStep, hfr, hnab, hdiff, hnone]
    rw [hS']
    exact ⟨rfl, rfl⟩

/-- C2, witness: the fetch of `https://example.com/a` redirects to the
already-settled `https://example.com/b`; A's promise links to B's, A's
transport is aborted, and A observes B's memoized result. -/
theorem redirect_merge_witness :
    (headersStep c2State 1 "https://example.com/b").promStates[1]? =
      some (.linked 0) ∧
    ((headersStep c2State 1 "https://example.com/b").fetches[1]?).map
      FetchRec.aborted = some true ∧
    observe (headersStep c2State 1 "https://example.com/b") 2 1 =
      some ⟨"b.bin", some "b.bin", none, none⟩ := by
  have h := (redirect_merge c2State 1
    ⟨"https://example.com/a", "https://example.com/a", none, 1, false⟩
    "https://example.com/b" (by decide) rfl (by decide) (by decide)).1 0 (by decide)
  exact ⟨h.1, h.2.1, h.2.2.2 1 ⟨"b.bin", some "b.bin", none, none⟩ (by decide)⟩

/-- C3: a fetch failure settles the operation's promise with a fulfilled
error record `{url: placeholder, error}` — the promise resolves, it never
rejects — and that record stays memoized under the access token: a later
request for the same resource returns the same promise without issuing a
new fetch and observes the same record.  A malformed data URI likewise
yields a memoized fulfilled error record. -/
theorem fetch_failure_memoized :
    (∀ (S : SessionState) (opts : CaptureOptions) (url : String)
        (M : Option String) (e : String),
      strStarts (splitUrlByAnchor url).1 "data:" = false →
      lookupA (getAccessToken (splitUrlByAnchor url).1 M) S.accessMap = none →
      (failStep (requestStep S url M opts).1 S.fetches.length e).promStates[(requestStep S url M opts).2]? =
        some (.fulfilled ⟨getErrorUrl url, none, none, some e⟩) ∧
      (∀ e', (failStep (requestStep S url M opts).1 S.fetches.length e).promStates[(requestStep S url M opts).2]? ≠
        some (.rejected e')) ∧
      lookupA (getAccessToken (splitUrlByAnchor url).1 M)
        (failStep (requestStep S url M opts).1 S.fetches.length e).accessMap =
        some (requestStep S url M opts).2 ∧
      requestStep (failStep (requestStep S url M opts).1 S.fetches.length e) url M opts =
        (failStep (requestStep S url M opts).1 S.fetches.length e,
         (requestStep S url M opts).2) ∧
      observe (failStep (requestStep S url M opts).1 S.fetches.length e) 1
          (requestStep S url M opts).2 =
        some ⟨getErrorUrl url, none, none, some e⟩) ∧
    (∀ (S : SessionState) (opts : CaptureOptions) (url : String) (M : Option String),
      strStarts (splitUrlByAnchor url).1 "data:" = true →
      opts.saveDataUriAsFile = true →
      opts.saveAs ≠ SaveAs.singleHtml →
      dataUriToFile (splitUrlByAnchor url).1 = none →
      lookupA (getAccessToken (splitUrlByAnchor url).1 M) S.accessMap = none →
      (requestStep S url M opts).1.promStates[(requestStep S url M opts).2]? =
        some (.fulfilled ⟨getErrorUrl url, none, none, some "Malformed data URL."⟩) ∧
      lookupA (getAccessToken (splitUrlByAnchor url).1 M)
        (requestStep S url M opts).1.accessMap = some (requestStep S url M opts).2) := by
  constructor
  · intro S opts url M e hnd hfresh
    have hstep : requestStep S url M opts =
        ({ accessMap :=
             (getAccessToken (splitUrlByAnchor url).1 M, S.promStates.length) :: S.accessMap,
           promStates := S.promStates ++ [PromState.pending],
           fetches :=
             S.fetches ++
               [⟨url, (splitUrlByAnchor url).1, M, S.promStates.length, false⟩] },
         S.promStates.length) := by
      simp only [requestStep, hfresh, hnd, Bool.false_eq_true, if_false]
    have hset : (S.promStates ++ [PromState.pending]).set S.promStates.length
        (PromState.fulfilled ⟨getErrorUrl url, none, none, some e⟩) =
        S.promStates ++ [PromState.fulfilled ⟨getErrorUrl url, none, none, some e⟩] := by
      rw [List.set_append_right _ _ (le_refl _)]
      simp
    have hfail : failStep (requestStep S url M opts).1 S.fetches.length e =
        { accessMap :=
            (getAccessToken (splitUrlByAnchor url).1 M, S.promStates.length) :: S.accessMap,
          promStates :=
            S.promStates ++ [PromState.fulfilled ⟨getErrorUrl url, none, none, some e⟩],
          fetches :=
            S.fetches ++
              [⟨url, (splitUrlByAnchor url).1, M, S.promStates.length, false⟩] } := by
      rw [hstep]
      simp only [failStep, List.getElem?_concat_length]
      simp [hset]
    have hmain : (failStep (requestStep S url M opts).1 S.fetches.length e).promStates[(requestStep S url M opts).2]? =
        some (.fulfilled ⟨getErrorUrl url, none, none, some e⟩) := by
      rw [hfail, hstep]
      exact List.getElem?_concat_length _ _
    refine ⟨hmain, ?_, ?_, ?_, ?_⟩
    · intro e'
      rw [hmain]
      simp
    · rw [hfail, hstep]
      simp [lookupA]
    · apply requestStep_memo
      rw [hfail, hstep]
      simp [lookupA]
    · simp only [observe, hmain]
  · intro S opts url M hd hflag hsingle hmal hfresh
    have hcond : (opts.saveDataUriAsFile && !(opts.saveAs == SaveAs.singleHtml)) = true := by
      rw [hflag, beq_eq_false_iff_ne.mpr hsingle]
      rfl
    have hstep : requestStep S url M opts =
        ({ S with
            accessMap :=
              (getAccessToken (splitUrlByAnchor url).1 M, S.promStates.length) :: S.accessMap,
            promStates :=
              S.promStates ++
                [PromState.fulfilled
                  ⟨getErrorUrl url, none, none, some "Malformed data URL."⟩] },
         S.promStates.length) := by
      simp only [requestStep, hfresh, hd, if_true, hcond, hmal]
    constructor
    · rw [hstep]
      exact List.getElem?_concat_length _ _
    · rw [hstep]
      simp [lookupA]

/-- C3, witness: a concrete failing network fetch and a concrete malformed
data URI both yield memoized fulfilled error records. -/
theorem fetch_failure_memoized_witness :
    (failStep (requestStep initSession "https://example.com/x#f" none
        ⟨.folder, false⟩).1 0 "ERR_FAILED").promStates[0]? =
      some (.fulfilled ⟨getErrorUrl "https://example.com/x#f", none, none,
        some "ERR_FAILED"⟩) ∧
    requestStep (failStep (requestStep initSession "https://example.com/x#f" none
        ⟨.folder, false⟩).1 0 "ERR_FAILED") "https://example.com/x#f" none ⟨.folder, false⟩ =
      (failStep (requestStep initSession "https://example.com/x#f" none
        ⟨.folder, false⟩).1 0 "ERR_FAILED", 0) ∧
    (requestStep initSession "data:malformed" none ⟨.zip, true⟩).1.promStates[0]? =
      some (.fulfilled ⟨getErrorUrl "data:malformed", none, none,
        some "Malformed data URL."⟩) := by
  have h1 := fetch_failure_memoized.1 initSession ⟨.folder, false⟩
    "https://example.com/x#f" none "ERR_FAILED" (by decide) (by decide)
  have h2 := fetch_failure_memoized.2 initSession ⟨.zip, true⟩
    "data:malformed" none (by decide) rfl (by decide) (by decide) (by decide)
  exact ⟨h1.1, h1.2.2.2.1, h2.1⟩

theorem b64Val_b64Char : ∀ n, n < 64 → b64Val (b64Char n) = n := by decide

theorem b64Char_ne_pad : ∀ n, n < 64 → b64Char n ≠ '=' := by decide

theorem b64Char_avoids : ∀ n, n < 64 →
    b64Char n ≠ ',' ∧ b64Char n ≠ '#' ∧ b64Char n ≠ ';' := by decide

theorem b64_roundtrip_aux : ∀ (n : Nat) (l : List Nat), l.length ≤ n →
    (∀ x ∈ l, x < 256) → b64Decode (b64Encode l) = l := by
  intro n
  induction n with
  | zero =>
    intro l hlen _
    have hl : l = [] := List.length_eq_zero.mp (by omega)
    subst hl
    rfl
  | succ n ih =>
    intro l hlen hb
    match l with
    | [] => rfl
    | [a] =>
      have ha : a < 256 := hb a (by simp)
      show b64Decode [b64Char (a / 4), b64Char (a % 4 * 16), '=', '='] = [a]
      rw [b64Decode, if_pos rfl, b64Val_b64Char (a / 4) (by omega),
        b64Val_b64Char (a % 4 * 16) (by omega)]
      have h1 : a / 4 * 4 + a % 4 * 16 / 16 = a := by omega
      rw [h1]
    | [a, b] =>
      have ha : a < 256 := hb a (by simp)
      have hbb : b < 256 := hb b (by simp)
      show b64Decode [b64Char (a / 4), b64Char (a % 4 * 16 + b / 16),
        b64Char (b % 16 * 4), '='] = [a, b]
      rw [b64Decode, if_neg (b64Char_ne_pad (b % 16 * 4) (by omega)), if_pos rfl,
        b64Val_b64Char (a / 4) (by omega), b64Val_b64Char (a % 4 * 16 + b / 16) (by omega),
        b64Val_b64Char (b % 16 * 4) (by omega)]
      have h1 : a / 4 * 4 + (a % 4 * 16 + b / 16) / 16 = a := by omega
      have h2 : (a % 4 * 16 + b / 16) % 16 * 16 + b % 16 * 4 / 4 = b := by omega
      rw [h1, h2]
    | a :: b :: c :: rest =>
      have ha : a < 256 := hb a (by simp)
      have hbb : b < 256 := hb b (by simp)
      have hc : c < 256 := hb c (by simp)
      have hrest : b64Decode (b64Encode rest) = rest := by
        apply ih rest (by simp at hlen; omega)
        intro x hx
        exact hb x (by simp [hx])
      show b64Decode (b64Char (a / 4) :: b64Char (a % 4 * 16 + b / 16) ::
        b64Char (b % 16 * 4 + c / 64) :: b64Char (c % 64) :: b64Encode rest) = a :: b :: c :: rest
      rw [b64Decode, if_neg (b64Char_ne_pad (b % 16 * 4 + c / 64) (by omega)),
        if_neg (b64Char_ne_pad (c % 64) (by omega)),
        b64Val_b64Char (a / 4) (by omega), b64Val_b64Char (a % 4 * 16 + b / 16) (by omega),
        b64Val_b64Char (b % 16 * 4 + c / 64) (by omega),
        b64Val_b64Char (c % 64) (by omega), hrest]
      have h1 : a / 4 * 4 + (a % 4 * 16 + b / 16) / 16 = a := by omega
      have h2 : (a % 4 * 16 + b / 16) % 16 * 16 + (b % 16 * 4 + c / 64) / 4 = b := by omega
      have h3 : (b % 16 * 4 + c / 64) % 4 * 64 + c % 64 = c := by omega
      rw [h1, h2, h3]

theorem b64_roundtrip (l : List Nat) (hl : ∀ x ∈ l, x < 256) :
    b64Decode (b64Encode l) = l :=
  b64_roundtrip_aux l.length l (le_refl _) hl

theorem b64Encode_avoids : ∀ (n : Nat) (l : List Nat), l.length ≤ n →
    (∀ x ∈ l, x < 256) → ∀ c ∈ b64Encode l, c ≠ ',' ∧ c ≠ '#' ∧ c ≠ ';' := by
  intro n
  induction n with
  | zero =>
    intro l hlen _
    have hl : l = [] := List.length_eq_zero.mp (by omega)
    subst hl
    intro c hc
    simp [b64Encode] at hc
  | succ n ih =>
    intro l hlen hb c hc
    have hpad : ('=' : Char) ≠ ',' ∧ ('=' : Char) ≠ '#' ∧ ('=' : Char) ≠ ';' := by decide
    match l with
    | [] => simp [b64Encode] at hc
    | [a] =>
      have ha : a < 256 := hb a (by simp)
      simp only [b64Encode, List.mem_cons, List.not_mem_nil, or_false] at hc
      rcases hc with rfl | rfl | rfl | rfl
      · exact b64Char_avoids _ (by omega)
      · exact b64Char_avoids _ (by omega)
      · exact hpad
      · exact hpad
    | [a, b] =>
      have ha : a < 256 := hb a (by simp)
      have hbb : b < 256 := hb b (by simp)
      simp only [b64Encode, List.mem_cons, List.not_mem_nil, or_false] at hc
      rcases hc with rfl | rfl | rfl | rfl
      · exact b64Char_avoids _ (by omega)
      · exact b64Char_avoids _ (by omega)
      · exact b64Char_avoids _ (by omega)
      · exact hpad
    | a :: b :: cc :: rest =>
      have ha : a < 256 := hb a (by simp)
      have hbb : b < 256 := hb b (by simp)
      have hcc : cc < 256 := hb cc (by simp)
      simp only [b64Encode, List.mem_cons] at hc
      rcases hc with rfl | rfl | rfl | rfl | hc
      · exact b64Char_avoids _ (by omega)
      · exact b64Char_avoids _ (by omega)
      · exact b64Char_avoids _ (by omega)
      · exact b64Char_avoids _ (by omega)
      · exact ih rest (by simp at hlen; omega) (fun x hx => hb x (by simp [hx])) c hc

theorem hexDigit_avoids : ∀ n, n < 16 →
    hexDigit n ≠ ',' ∧ hexDigit n ≠ '#' ∧ hexDigit n ≠ ';' := by decide

theorem encodeURIComponent_avoids (s : String) :
    ∀ c ∈ (encodeURIComponent s).data, c ≠ ',' ∧ c ≠ '#' ∧ c ≠ ';' := by
  intro c hc
  simp only [encodeURIComponent, List.mem_flatMap] at hc
  obtain ⟨x, hx, hcx⟩ := hc
  by_cases hu : uriUnreserved x = true
  · rw [if_pos hu] at hcx
    simp only [List.mem_singleton] at hcx
    subst hcx
    refine ⟨?_, ?_, ?_⟩ <;> rintro rfl <;> exact absurd hu (by decide)
  · rw [if_neg hu] at hcx
    simp only [List.mem_cons, List.not_mem_nil, or_false] at hcx
    rcases hcx with rfl | rfl | rfl
    · decide
    · exact hexDigit_avoids _ (by omega)
    · exact hexDigit_avoids _ (by omega)

theorem replaceFirstChar_append (pat : Char) (repl B : List Char) :
    ∀ A : List Char, (∀ c ∈ A, c ≠ pat) →
      replaceFirstChar (A ++ pat :: B) pat repl = A ++ repl ++ B := by
  intro A
  induction A with
  | nil => simp [replaceFirstChar]
  | cons c rest ih =>
    intro hA
    have ih' := ih (fun x hx => hA x (List.mem_cons_of_mem _ hx))
    simp only [List.cons_append, replaceFirstChar,
      if_neg (hA c (List.mem_cons_self c rest))]
    exact congrArg (fun t => c :: t) ih'

theorem takeWhile_stops (pat : Char) (Q : List Char) :
    ∀ P : List Char, (∀ c ∈ P, c ≠ pat) →
      (P ++ pat :: Q).takeWhile (fun c => c ≠ pat) = P := by
  intro P
  induction P with
  | nil =>
    intro _
    simp [List.takeWhile_cons]
  | cons c rest ih =>
    intro hP
    have hc : decide (c ≠ pat) = true := decide_eq_true (hP c (List.mem_cons_self c rest))
    rw [List.cons_append, List.takeWhile_cons, if_pos hc]
    exact congrArg (fun t => c :: t) (ih (fun x hx => hP x (List.mem_cons_of_mem _ hx)))

theorem takeWhile_all (pat : Char) :
    ∀ P : List Char, (∀ c ∈ P, c ≠ pat) →
      P.takeWhile (fun c => c ≠ pat) = P := by
  intro P
  induction P with
  | nil =>
    intro _
    rfl
  | cons c rest ih =>
    intro hP
    have hc : decide (c ≠ pat) = true := decide_eq_true (hP c (List.mem_cons_self c rest))
    rw [List.takeWhile_cons, if_pos hc]
    exact congrArg (fun t => c :: t) (ih (fun x hx => hP x (List.mem_cons_of_mem _ hx)))

theorem dropWhile_stops (pat : Char) (Q : List Char) :
    ∀ P : List Char, (∀ c ∈ P, c ≠ pat) →
      (P ++ pat :: Q).dropWhile (fun c => c ≠ pat) = pat :: Q := by
  intro P
  induction P with
  | nil =>
    intro _
    simp [List.dropWhile_cons]
  | cons c rest ih =>
    intro hP
    have hc : decide (c ≠ pat) = true := decide_eq_true (hP c (List.mem_cons_self c rest))
    rw [List.cons_append, List.dropWhile_cons, if_pos hc]
    exact ih (fun x hx => hP x (List.mem_cons_of_mem _ hx))

theorem decode_of_shape (P payload : List Char) (H : String)
    (hP : ∀ c ∈ P, c ≠ ',' ∧ c ≠ '#') (hpay : ∀ c ∈ payload, c ≠ '#')
    (hH : H.data = [] ∨ H.data.head? = some '#') :
    decodeDataUriRef ((⟨P ++ ',' :: payload⟩ : String) ++ H) = b64Decode payload := by
  have hnohash : ∀ c ∈ P ++ ',' :: payload, c ≠ '#' := by
    intro c hc
    rcases List.mem_append.mp hc with hc | hc
    · exact (hP c hc).2
    · rcases List.mem_cons.mp hc with rfl | hc
      · decide
      · exact hpay c hc
  have hsplit : (splitUrlByAnchor ((⟨P ++ ',' :: payload⟩ : String) ++ H)).1.data =
      P ++ ',' :: payload := by
    show ((⟨P ++ ',' :: payload⟩ : String) ++ H).data.takeWhile (fun c => c ≠ '#') = _
    rw [String.data_append]
    show ((P ++ ',' :: payload) ++ H.data).takeWhile (fun c => c ≠ '#') = _
    rcases hH with hH | hH
    · rw [hH, List.append_nil]
      exact takeWhile_all '#' _ hnohash
    · obtain ⟨t, ht⟩ : ∃ t, H.data = '#' :: t := by
        cases hd : H.data with
        | nil => rw [hd] at hH; simp at hH
        | cons a t =>
          rw [hd] at hH
          simp only [List.head?_cons, Option.some.injEq] at hH
          exact ⟨t, by rw [hH]⟩
      rw [ht]
      exact takeWhile_stops '#' t _ hnohash
  unfold decodeDataUriRef
  rw [hsplit, dropWhile_stops ',' payload P (fun c hc => (hP c hc).1)]
  rfl

/-- C8: decoding the data-URI reference produced for a blob by the inline
(singleHtml) strategy — ignoring the spliced filename parameter and the
appended source-URL fragment — yields bytes identical to the blob's
content, for byte-valued content and a MIME type free of `;`/`,`/`#`. -/
theorem inline_roundtrip (b : Blob) (filename sourceUrl : String)
    (hbytes : ∀ x ∈ b.content, x < 256)
    (hmime : ∀ c ∈ b.type.data, c ≠ ';' ∧ c ≠ ',' ∧ c ≠ '#') :
    decodeDataUriRef (downloadBlobSingleHtml b filename sourceUrl).url = b.content := by
  have hpay : ∀ c ∈ b64Encode b.content, c ≠ ',' ∧ c ≠ '#' ∧ c ≠ ';' :=
    b64Encode_avoids b.content.length b.content (le_refl _) hbytes
  have hdropW : ∀ l : List Char,
      l.dropWhile (fun c => c ≠ '#') = [] ∨
      ∃ t, l.dropWhile (fun c => c ≠ '#') = '#' :: t := by
    intro l
    induction l with
    | nil => exact Or.inl rfl
    | cons c rest ih =>
      rw [List.dropWhile_cons]
      by_cases hc : c = '#'
      · subst hc
        rw [if_neg (by simp)]
        exact Or.inr ⟨rest, rfl⟩
      · rw [if_pos (by simpa using hc)]
        exact ih
  have hH : ((splitUrlByAnchor sourceUrl).2.data = [] ∨
      (splitUrlByAnchor sourceUrl).2.data.head? = some '#') := by
    show sourceUrl.data.dropWhile (fun c => c ≠ '#') = [] ∨
      (sourceUrl.data.dropWhile (fun c => c ≠ '#')).head? = some '#'
    rcases hdropW sourceUrl.data with hd | ⟨t, hd⟩
    · exact Or.inl hd
    · right
      rw [hd]
      rfl
  by_cases hfn : filename = ""
  · have hurl : (downloadBlobSingleHtml b filename sourceUrl).url =
        (⟨(("data:" : String).data ++ b.type.data ++ (";base64" : String).data) ++
          ',' :: b64Encode b.content⟩ : String) ++ (splitUrlByAnchor sourceUrl).2 := by
      simp only [downloadBlobSingleHtml, if_pos hfn]
      congr 1
      apply String.ext
      show (readFileAsDataURL b).data = _
      simp [readFileAsDataURL, String.data_append, List.append_assoc]
    rw [hurl, decode_of_shape _ _ _ ?_ (fun c hc => (hpay c hc).2.1) hH]
    · exact b64_roundtrip b.content hbytes
    · intro c hc
      rcases List.mem_append.mp hc with hc | hc
      rcases List.mem_append.mp hc with hc | hc
      · exact (by decide : ∀ c ∈ ("data:" : String).data, c ≠ ',' ∧ c ≠ '#') c hc
      · exact ⟨(hmime c hc).2.1, (hmime c hc).2.2⟩
      · exact (by decide : ∀ c ∈ (";base64" : String).data, c ≠ ',' ∧ c ≠ '#') c hc
  · have hR : ∀ c ∈ (";filename=" ++ encodeURIComponent filename ++ ";").data,
        c ≠ ',' ∧ c ≠ '#' := by
      intro c hc
      simp only [String.data_append, List.append_assoc, List.mem_append] at hc
      rcases hc with hc | hc | hc
      · exact (by decide : ∀ c ∈ (";filename=" : String).data, c ≠ ',' ∧ c ≠ '#') c hc
      · exact ⟨(encodeURIComponent_avoids filename c hc).1,
          (encodeURIComponent_avoids filename c hc).2.1⟩
      · exact (by decide : ∀ c ∈ (";" : String).data, c ≠ ',' ∧ c ≠ '#') c hc
    have hrep : replaceFirstChar (readFileAsDataURL b).data ';'
        (";filename=" ++ encodeURIComponent filename ++ ";").data =
        (("data:" : String).data ++ b.type.data) ++
          (";filename=" ++ encodeURIComponent filename ++ ";").data ++
          (("base64," : String).data ++ b64Encode b.content) := by
      have hdata2 : (readFileAsDataURL b).data =
          (("data:" : String).data ++ b.type.data) ++
            ';' :: (("base64," : String).data ++ b64Encode b.content) := by
        simp [readFileAsDataURL, String.data_append, List.append_assoc]
      rw [hdata2]
      apply replaceFirstChar_append
      intro c hc
      rcases List.mem_append.mp hc with hc | hc
      · exact (by decide : ∀ c ∈ ("data:" : String).data, c ≠ ';') c hc
      · exact (hmime c hc).1
    have hurl : (downloadBlobSingleHtml b filename sourceUrl).url =
        (⟨((("data:" : String).data ++ b.type.data) ++
            (";filename=" ++ encodeURIComponent filename ++ ";").data ++
            ("base64" : String).data) ++ ',' :: b64Encode b.content⟩ : String) ++
          (splitUrlByAnchor sourceUrl).2 := by
      simp only [downloadBlobSingleHtml, if_neg hfn]
      congr 1
      apply String.ext
      show replaceFirstChar (readFileAsDataURL b).data ';'
          (";filename=" ++ encodeURIComponent filename ++ ";").data = _
      rw [hrep]
      simp [String.data_append, List.append_assoc]
    rw [hurl, decode_of_shape _ _ _ ?_ (fun c hc => (hpay c hc).2.1) hH]
    · exact b64_roundtrip b.content hbytes
    · intro c hc
      rcases List.mem_append.mp hc with hc | hc
      rcases List.mem_append.mp hc with hc | hc
      rcases List.mem_append.mp hc with hc | hc
      · exact (by decide : ∀ c ∈ ("data:" : String).data, c ≠ ',' ∧ c ≠ '#') c hc
      · exact ⟨(hmime c hc).2.1, (hmime c hc).2.2⟩
      · exact hR c hc
      · exact (by decide : ∀ c ∈ ("base64" : String).data, c ≠ ',' ∧ c ≠ '#') c hc

/-- C8, witness: a concrete five-byte blob round-trips through the inline
strategy with a filename parameter and a fragment-carrying source URL. -/
theorem inline_roundtrip_witness :
    decodeDataUriRef (downloadBlobSingleHtml
        ⟨"image/png", [72, 101, 108, 108, 111]⟩ "a b.png" "https://x/y#z").url =
      [72, 101, 108, 108, 111] :=
  inline_roundtrip ⟨"image/png", [72, 101, 108, 108, 111]⟩ "a b.png" "https://x/y#z"
    (by decide) (by decide)


end WSB
